import Mathlib

/-!
Verification of the return-calculation logic of
`streamlit_price_change_from_close.py` (a Streamlit stock-returns app).

Modelling conventions (shallow embedding):
* Calendar dates are integers counting days since 1970-01-01, which was a
  Thursday.  Python's `datetime.weekday()` numbers Monday as 0, so
  `weekday d = (d + 3) % 7` (Lean's `%` on `Int` is Python's `%`: euclidean-style, nonnegative for a positive modulus).
* Bar timestamps are integers counting minutes since the epoch in UTC.  A
  pandas `DatetimeIndex` carries a timezone; we model a timezone as its
  UTC offset in minutes, so `strftime` applied to a tz-aware index reads
  the date/time of `ts + offset`.  `tz_convert('America/New_York')`
  replaces the index offset by the Eastern offset `nyTz` (a parameter,
  since the concrete offset depends on daylight-saving time).
* Prices are exact rationals (`ℚ`): the idealisation of the float values
  used in the Python code.  Python's `round(x, 2)` is rounding half to
  even at two decimal places, modelled exactly on `ℚ` by `round2`.
* The yfinance call `yf.Ticker(symbol).history(start, end, interval='1h')`
  is an opaque provider: a function from the symbol and the start/end day
  arguments to `Option ProviderResponse`; `none` models an exception
  raised by the call (caught by the `except` of the per-symbol loop).
-/

/-- Python `datetime.weekday()`: Monday = 0 … Sunday = 6, for a date given
as days since 1970-01-01 (a Thursday). -/
def weekday (d : Int) : Int := (d + 3) % 7

/-- Lines 34–37: `prev_day = target_date - timedelta(days=3)` when the
target is a Monday, else `- timedelta(days=1)`. -/
def prevDay (d : Int) : Int := if weekday d = 0 then d - 3 else d - 1

/-- One OHLC bar as returned by the provider; only the close is read.
`ts` is the bar timestamp in minutes since the epoch, UTC. -/
structure Bar where
  ts : Int
  close : ℚ
deriving DecidableEq, Repr

/-- A provider response: the rows of the returned DataFrame together with
the UTC offset (minutes) of the timezone its `DatetimeIndex` carries. -/
structure ProviderResponse where
  tz : Int
  bars : List Bar
deriving DecidableEq, Repr

/-- One row of the result table (lines 39–44 / 73–76). -/
structure ReturnRecord where
  symbol : String
  prevClose : ℚ
  targetPrice : ℚ
  retPct : ℚ
deriving DecidableEq, Repr

instance : Inhabited ReturnRecord := ⟨⟨"", 0, 0, 0⟩⟩

/-- The observable outcome of `calculate_stock_returns`: the table it
returns plus the list of symbols for which the provider was invoked
(line 59 runs once per loop iteration). -/
structure CalcOutcome where
  table : List ReturnRecord
  providerCalls : List String
deriving DecidableEq, Repr

/-- Date (`strftime '%Y-%m-%d'`) of a bar's timestamp displayed in the
timezone with UTC offset `off`, as a day number. -/
def localDate (off : Int) (b : Bar) : Int := (b.ts + off).fdiv 1440

/-- Time of day (`strftime '%H:%M'`) of a bar's timestamp displayed in the
timezone with UTC offset `off`, as minutes after midnight. -/
def localTime (off : Int) (b : Bar) : Int := (b.ts + off) % 1440

/-- Line 63: `ticker[ticker.index.strftime('%Y-%m-%d') == target_date...]`.
The date comparison reads the index in the timezone the provider returned
(`resp.tz`); the `tz_convert` to New York happens only afterwards, on the
already-selected rows. -/
def targetSet (resp : ProviderResponse) (d : Int) : List Bar :=
  resp.bars.filter (fun b => localDate resp.tz b = d)

/-- Line 68: `prev_day_data = ticker[ticker.index.strftime('%Y-%m-%d') ==
prev_day...]` — again in the index's original timezone. -/
def prevSet (resp : ProviderResponse) (pd : Int) : List Bar :=
  resp.bars.filter (fun b => localDate resp.tz b = pd)

/-- Lines 64–65: after `tz_convert('America/New_York')`, keep the rows
whose `'%H:%M'` equals `comparison_time`. -/
def targetTimeMatches (nyTz tmin : Int) (bars : List Bar) : List Bar :=
  bars.filter (fun b => localTime nyTz b = tmin)

/-- Round a rational to the nearest integer, ties to even (Python's
`round` on the idealised real value). -/
def roundHalfEven (q : ℚ) : ℚ :=
  let f : ℤ := Int.floor q
  let r : ℚ := q - f
  if r < 1/2 then f
  else if 1/2 < r then f + 1
  else if f % 2 = 0 then f else f + 1

/-- Python `round(x, 2)`. -/
def round2 (q : ℚ) : ℚ := roundHalfEven (q * 100) / 100

/-- Line 71: `((target_time_price - prev_day_close) / prev_day_close) * 100`
before rounding. -/
def exactReturn (targetClose prevClose : ℚ) : ℚ :=
  ((targetClose - prevClose) / prevClose) * 100

/-- The body of the per-symbol `try` block (lines 51–76).  `provider`
receives the symbol and the `start`/`end` day arguments of line 59.
`none` models any caught exception: a raising provider call, the
`IndexError` of `.values[0]` on line 65 when no bar matches the target
time, or the `IndexError` of `.iloc[-1]` on line 69 when the previous-day
set is empty. -/
def processSymbol (provider : String → Int → Int → Option ProviderResponse)
    (nyTz d tmin : Int) (s : String) : Option ReturnRecord :=
  match provider s (prevDay d) (d + 1) with
  | none => none
  | some resp =>
    match targetTimeMatches nyTz tmin (targetSet resp d) with
    | [] => none
    | tb :: _ =>
      match (prevSet resp (prevDay d)).getLast? with
      | none => none
      | some pb =>
        some ⟨s, round2 pb.close, round2 tb.close,
              round2 (exactReturn tb.close pb.close)⟩

/-!
The sort on line 92, `df_results.sort_values('Return (%)', ascending=False)`,
delegates to pandas `nargsort` with the default `kind='quicksort'`, which in
turn calls numpy's `argsort`.  We embed that machinery faithfully:

* `aqsLoop` mirrors numpy's `aquicksort` (npysort/quicksort.c.src): an
  explicit-stack introsort whose partition step is a median-of-3 Hoare
  partition, switching to an insertion sort for subranges of at most
  `SMALL_QUICKSORT = 15` pointer difference (i.e. at most 16 elements) and
  to `aheapsort` once the depth budget `2 * npy_get_msb(num)` is spent.
* C operates on an `npy_intp* tosort` array in place; we pass the index
  list `t` explicitly.  `lswap` is `INTP_SWAP` (a no-op out of bounds,
  where the C code would be undefined); the in-place shifting loops of the
  insertion sort and of the heap sift are rendered by `insRev`/`insList`
  (insert into the sorted prefix, scanning from its right end) and by
  successive swaps along the sift path, which produce the same array.
  Loops whose termination the C code gets from sentinel values carry a
  fuel argument large enough for every actual run.
* `nargsortDesc` mirrors pandas `nargsort(.., ascending=False)`
  (pandas/core/sorting.py): reverse the values, argsort them ascending,
  map through the reversed index array, and reverse the result.  The NaN
  mask of `nargsort` is empty for our (total, rational) keys and is
  omitted.
-/

/-- The C macro `INTP_SWAP(*i, *j)` on the index list, guarded: C would be UB out of
bounds, and every reachable swap is in bounds. -/
def lswap (t : List Nat) (i j : Int) : List Nat :=
  if 0 ≤ i ∧ i < t.length ∧ 0 ≤ j ∧ j < t.length then
    let a := t.getD i.toNat 0
    let b := t.getD j.toNat 0
    (t.set i.toNat b).set j.toNat a
  else t

/-- Read `v[*p]`: the key of the index stored at position `p`. -/
def vAt (v : List ℚ) (t : List Nat) (p : Int) : ℚ := v.getD (t.getD p.toNat 0) 0

/-- The scan `do ++pi; while (v[*pi] < vp)`. -/
def scanUp (v : List ℚ) (t : List Nat) (vp : ℚ) : Int → Nat → Int
  | pi, 0 => pi
  | pi, fuel+1 =>
    let pi' := pi + 1
    if vAt v t pi' < vp then scanUp v t vp pi' fuel else pi'

/-- The scan `do --pj; while (vp < v[*pj])`. -/
def scanDown (v : List ℚ) (t : List Nat) (vp : ℚ) : Int → Nat → Int
  | pj, 0 => pj
  | pj, fuel+1 =>
    let pj' := pj - 1
    if vp < vAt v t pj' then scanDown v t vp pj' fuel else pj'

/-- The inner `for (;;)` exchange loop of the partition. -/
def partLoop (v : List ℚ) (vp : ℚ) : List Nat → Int → Int → Nat → (List Nat × Int)
  | t, pi, _, 0 => (t, pi)
  | t, pi, pj, fuel+1 =>
    let pi' := scanUp v t vp pi (t.length + 2)
    let pj' := scanDown v t vp pj (t.length + 2)
    if pi' ≥ pj' then (t, pi')
    else partLoop v vp (lswap t pi' pj') pi' pj' fuel

/-- One median-of-3 partition step over `[pl, pr]`; returns the new index
list and the final `pi`. -/
def partitionStep (v : List ℚ) (t : List Nat) (pl pr : Int) : (List Nat × Int) :=
  let pm := pl + ((pr - pl) / 2)
  let t1 := if vAt v t pm < vAt v t pl then lswap t pm pl else t
  let t2 := if vAt v t1 pr < vAt v t1 pm then lswap t1 pr pm else t1
  let t3 := if vAt v t2 pm < vAt v t2 pl then lswap t2 pm pl else t2
  let vp := vAt v t3 pm
  let t4 := lswap t3 pm (pr - 1)
  let pp := partLoop v vp t4 pl (pr - 1) (t4.length + 2)
  (lswap pp.1 pp.2 (pr - 1), pp.2)

/-- Insert index `vi` into the reversed sorted prefix: the C inner `while
(pj > pl && vp < v[*pk]) *pj-- = *pk--;` shift, scanning the prefix from
its right end. -/
def insRev (v : List ℚ) (vi : Nat) : List Nat → List Nat
  | [] => [vi]
  | k :: rest => if v.getD vi 0 < v.getD k 0 then k :: insRev v vi rest else vi :: k :: rest

/-- The insertion sort of a whole segment (the `for (pi = pl + 1; ...)`
loop), processing left to right. -/
def insList (v : List ℚ) (seg : List Nat) : List Nat :=
  (seg.foldl (fun acc i => insRev v i acc) []).reverse

/-- Insertion sort restricted to positions `[pl, pr]` of `t`. -/
def insSeg (v : List ℚ) (t : List Nat) (pl pr : Int) : List Nat :=
  if pl < 0 ∨ pr ≤ pl then t
  else
    let a := pl.toNat
    let w := (pr - pl + 1).toNat
    (t.take a) ++ insList v ((t.drop a).take w) ++ (t.drop (a + w))

/-- Model of numpy `aheapsort`: it works on a 1-based view `a = tosort - 1` of the
subrange starting at `pl`; `a[k]` is position `base + k - 1`. -/
def aGet (t : List Nat) (base k : Int) : Nat := t.getD (base + k - 1).toNat 0

/-- The sift-down loop of `aheapsort`, rendered with swaps along the sift
path (the C code moves a hole and writes `tmp` at the end, producing the
same array). -/
def siftLoop (v : List ℚ) (base : Int) (n : Int) : List Nat → Int → Int → Nat → (List Nat × Int)
  | t, i, _, 0 => (t, i)
  | t, i, j, fuel+1 =>
    if j ≤ n then
      let j' := if j < n ∧ v.getD (aGet t base j) 0 < v.getD (aGet t base (j+1)) 0 then j + 1 else j
      if v.getD (aGet t base i) 0 < v.getD (aGet t base j') 0 then
        siftLoop v base n (lswap t (base + i - 1) (base + j' - 1)) j' (2 * j') fuel
      else (t, i)
    else (t, i)

/-- Heapify phase of `aheapsort` (`for (l = n >> 1; l > 0; --l)`). -/
def heapLoop1 (v : List ℚ) (base : Int) (n : Int) : List Nat → Int → Nat → List Nat
  | t, _, 0 => t
  | t, l, fuel+1 =>
    if 1 ≤ l then
      heapLoop1 v base n (siftLoop v base n t l (2 * l) (t.length + 2)).1 (l - 1) fuel
    else t

/-- Extraction phase of `aheapsort` (`for (; n > 1;)`). -/
def heapLoop2 (v : List ℚ) (base : Int) : List Nat → Int → Nat → List Nat
  | t, _, 0 => t
  | t, n, fuel+1 =>
    if 1 < n then
      let t1 := lswap t (base + n - 1) (base + 1 - 1)
      heapLoop2 v base (siftLoop v base (n - 1) t1 1 2 (t1.length + 2)).1 (n - 1) fuel
    else t

/-- Embed numpy `aheapsort(vv, tosort + pl, num)`. -/
def aheapsort (v : List ℚ) (t : List Nat) (pl num : Int) : List Nat :=
  heapLoop2 v pl (heapLoop1 v pl num t (num / 2) (t.length + 2)) num (t.length + 2)

/-- The helper `npy_get_msb`: the `while (unum >>= 1) depth_limit++` loop. -/
def npyMsb : Nat → Nat → Nat
  | _, 0 => 0
  | u, fuel+1 => if u / 2 = 0 then 0 else npyMsb (u / 2) fuel + 1

/-- The outer `for (;;)` loop of numpy `aquicksort`, with the explicit
partition stack and the shared post-decremented depth budget. -/
def aqsLoop (v : List ℚ) : List Nat → List (Int × Int) → Int → Int → Int → Nat → List Nat
  | t, _, _, _, _, 0 => t
  | t, stack, pl, pr, depth, fuel+1 =>
    if pr - pl > 15 then
      if depth < 0 then
        let t' := aheapsort v t pl (pr - pl + 1)
        match stack with
        | [] => t'
        | (pl', pr') :: rest => aqsLoop v t' rest pl' pr' (depth - 1) fuel
      else
        let pp := partitionStep v t pl pr
        if pp.2 - pl < pr - pp.2 then
          aqsLoop v pp.1 ((pp.2 + 1, pr) :: stack) pl (pp.2 - 1) (depth - 1) fuel
        else aqsLoop v pp.1 ((pl, pp.2 - 1) :: stack) (pp.2 + 1) pr (depth - 1) fuel
    else
      let t' := insSeg v t pl pr
      match stack with
      | [] => t'
      | (pl', pr') :: rest => aqsLoop v t' rest pl' pr' depth fuel

/-- Embed numpy `aquicksort(v, tosort = [0..n), num = n)`: ascending argsort. -/
def aquicksort (v : List ℚ) : List Nat :=
  aqsLoop v (List.range v.length) [] 0 ((v.length : Int) - 1)
    (2 * (npyMsb v.length v.length : Int)) (4 * v.length + 64)

/-- Embed pandas `nargsort(values, kind='quicksort', ascending=False)`: reverse
the values and the index array, argsort ascending, apply the reversed
index array, reverse the result. -/
def nargsortDesc (keys : List ℚ) : List Nat :=
  let n := keys.length
  let revIdx := (List.range n).reverse
  let order := aquicksort keys.reverse
  (order.map (fun p => revIdx.getD p 0)).reverse

/-- The `'Return (%)'` column the sort is keyed on. -/
def keysOf (recs : List ReturnRecord) : List ℚ := recs.map (fun r => r.retPct)

/-- Line 92: `df_results.sort_values('Return (%)', ascending=False)`
followed by `reset_index(drop=True)`: reorder the rows by the indexer. -/
def sortValuesDesc (recs : List ReturnRecord) : List ReturnRecord :=
  (nargsortDesc (keysOf recs)).map (fun i => recs.getD i default)

/-- The core `calculate_stock_returns` (lines 8–95).  The weekend guard returns an
empty frame before any provider call; otherwise each symbol is processed
independently (failures skipped), an empty result set short-circuits to an
empty frame (lines 87–89), and a non-empty one is sorted descending by
`'Return (%)'`. -/
def calculate_stock_returns (provider : String → Int → Int → Option ProviderResponse)
    (nyTz : Int) (stock_list : List String) (d tmin : Int) : CalcOutcome :=
  if 5 ≤ weekday d then ⟨[], []⟩
  else
    let recs := stock_list.filterMap (processSymbol provider nyTz d tmin)
    if recs.isEmpty then ⟨[], stock_list⟩
    else ⟨sortValuesDesc recs, stock_list⟩

/-!  The symbol-list derivation of the presentation layer (line 134):
`[s.strip().upper() for s in stock_input.split('\n') if s.strip()]`.
Python string primitives are modelled at the character-list level so that
they stay kernel-computable. -/

/-- The six ASCII whitespace characters Python `str.strip()` removes. -/
def isPySpace (c : Char) : Bool :=
  c = ' ' ∨ c = '\t' ∨ c = '\n' ∨ c = '\r' ∨ c = '\x0b' ∨ c = '\x0c'

/-- Python `str.strip()` (ASCII whitespace). -/
def pyStrip (s : String) : String :=
  ⟨((s.data.dropWhile isPySpace).reverse.dropWhile isPySpace).reverse⟩

/-- Python `str.upper()` (ASCII letters). -/
def pyUpper (s : String) : String := ⟨s.data.map Char.toUpper⟩

/-- Python `str.split('\n')`. -/
def pySplitNewlines (s : String) : List String :=
  (s.data.splitOn '\n').map (fun cs => ⟨cs⟩)

/-- Line 134: the list handed to `calculate_stock_returns`. -/
def parseSymbols (raw : String) : List String :=
  ((pySplitNewlines raw).filter (fun s => !(pyStrip s).isEmpty)).map
    (fun s => pyUpper (pyStrip s))

/-- The strict order realised by a stable ascending argsort: index `i`
comes before `j` when its key is smaller, or the keys are equal and `i`
is the earlier original position. -/
def lexLT (v : List ℚ) (i j : Nat) : Prop :=
  v.getD i 0 < v.getD j 0 ∨ (v.getD i 0 = v.getD j 0 ∧ i < j)

instance (v : List ℚ) (i j : Nat) : Decidable (lexLT v i j) := by
  unfold lexLT
  infer_instance

/-- Spec-side notion (following the spec's words for C5): a
chronologically last bar of a bar set. -/
def isChronLast (bars : List Bar) (b : Bar) : Prop :=
  b ∈ bars ∧ ∀ b' ∈ bars, b'.ts ≤ b.ts

instance (bars : List Bar) (b : Bar) : Decidable (isChronLast bars b) := by
  unfold isChronLast
  infer_instance

/-- Observer on the per-symbol computation: the unrounded return of
line 71, read off before `round(..., 2)` is applied (same control flow as
`processSymbol`). -/
def exactReturnOf (provider : String → Int → Int → Option ProviderResponse)
    (nyTz d tmin : Int) (s : String) : Option ℚ :=
  match provider s (prevDay d) (d + 1) with
  | none => none
  | some resp =>
    match targetTimeMatches nyTz tmin (targetSet resp d) with
    | [] => none
    | tb :: _ =>
      match (prevSet resp (prevDay d)).getLast? with
      | none => none
      | some pb => some (exactReturn tb.close pb.close)

/-!  Concrete fixture for C3: seventeen symbols whose returns all tie.
`d = 5` is Tuesday 1970-01-06, so the comparison day is 4; with the index
timezone and the Eastern offset both 0, bar 6360 (= day 4, 10:30) is the
previous close and bar 7800 (= day 5, 10:30) the target-time bar; every
symbol gets the same two bars, so every return is `0.00`. -/

def c3Resp : ProviderResponse := ⟨0, [⟨6360, 1⟩, ⟨7800, 1⟩]⟩

def c3P : String → Int → Int → Option ProviderResponse := fun _ _ _ => some c3Resp

def c3Syms : List String :=
  ["A", "B", "C", "D", "E", "F", "G", "H", "I", "J", "K", "L", "M", "N", "O", "P", "Q"]

/-!  Concrete two-symbol fixture used to witness the amended C3: symbol
`A` returns 5%, symbol `B` returns 1%. -/

def c3wRespA : ProviderResponse := ⟨0, [⟨6360, 100⟩, ⟨7800, 105⟩]⟩

def c3wRespB : ProviderResponse := ⟨0, [⟨6360, 100⟩, ⟨7800, 101⟩]⟩

def c3wP : String → Int → Int → Option ProviderResponse :=
  fun s _ _ => some (if s = "A" then c3wRespA else c3wRespB)

/-!  Fixture for C5: the previous-day bars arrive out of chronological
order (10:30 before 09:30), so the positionally last bar (close 200) is
chronologically first, while the chronologically last bar closes at 100;
the target bar closes at 105. -/

def c5Resp : ProviderResponse := ⟨0, [⟨6360, 100⟩, ⟨6300, 200⟩, ⟨7800, 105⟩]⟩

def c5P : String → Int → Int → Option ProviderResponse := fun _ _ _ => some c5Resp

/-!  Fixture for C9: two bars of the target day share the target
time-of-day (a duplicated provider row); the first closes at 105, the
second at 999. -/

def c9Resp : ProviderResponse := ⟨0, [⟨6360, 100⟩, ⟨7800, 105⟩, ⟨7800, 999⟩]⟩

def c9P : String → Int → Int → Option ProviderResponse := fun _ _ _ => some c9Resp

/-!  Fixture for C10: exact returns 0.001% and 0.002% — different, but
equal after rounding to two decimals. -/

def c10RespA : ProviderResponse := ⟨0, [⟨6360, 100000⟩, ⟨7800, 100001⟩]⟩

def c10RespB : ProviderResponse := ⟨0, [⟨6360, 100000⟩, ⟨7800, 100002⟩]⟩

def c10P : String → Int → Int → Option ProviderResponse :=
  fun s _ _ => some (if s = "A" then c10RespA else c10RespB)

/-!  Vocabulary for the sortedness proof of the embedded numpy sort: a
pending segment of the introsort's work list, modifications that stay
inside a segment, and the invariant that the index list is already
sorted across everything except the pending segments. -/

/-- Position `x` lies in the (closed) segment `[lo, hi]`. -/
def inSeg (lo hi x : Int) : Prop := lo ≤ x ∧ x ≤ hi

/-- The step from `t` to `t'` only rearranged the segment `[lo, hi]`:
lengths agree, positions outside the segment are untouched, and every
key now inside the segment was already somewhere inside it. -/
def localMod (v : List ℚ) (lo hi : Int) (t t' : List Nat) : Prop :=
  t'.length = t.length ∧
  (∀ x : Nat, ((x : Int) < lo ∨ hi < (x : Int)) → t'.getD x 0 = t.getD x 0) ∧
  (∀ x : Int, lo ≤ x → x ≤ hi → 0 ≤ x → x < (t.length : Int) →
    ∃ y : Int, lo ≤ y ∧ y ≤ hi ∧ 0 ≤ y ∧ y < (t.length : Int) ∧ vAt v t' x = vAt v t y)

/-- Keys are already in ascending order across every pair of positions
that does not sit inside one common pending segment. -/
def sortedOutside (v : List ℚ) (t : List Nat) (pending : List (Int × Int)) : Prop :=
  ∀ x y : Int, 0 ≤ x → x < y → y < (t.length : Int) →
    (∀ s ∈ pending, ¬ (inSeg s.1 s.2 x ∧ inSeg s.1 s.2 y)) →
    vAt v t x ≤ vAt v t y

/-!  Vocabulary for the heapsort fallback: numpy's `aheapsort` works on
the 1-based view `a[k] = t[base + k - 1]` of the subrange. -/

/-- Key of 1-based heap slot `k` of the subrange starting at `base`. -/
def aKey (v : List ℚ) (base : Int) (t : List Nat) (k : Int) : ℚ :=
  vAt v t (base + k - 1)

/-- Max-heap condition at node `k` for a heap of size `nn`. -/
def heapAt (v : List ℚ) (base : Int) (t : List Nat) (nn k : Int) : Prop :=
  (2 * k ≤ nn → aKey v base t (2 * k) ≤ aKey v base t k) ∧
  (2 * k + 1 ≤ nn → aKey v base t (2 * k + 1) ≤ aKey v base t k)

/-- Max-heap condition at every node from `m` up. -/
def heapFrom (v : List ℚ) (base : Int) (t : List Nat) (nn m : Int) : Prop :=
  ∀ k : Int, m ≤ k → heapAt v base t nn k

/-!  Spec-side comparison (following the spec's words for C3): rows
sorted by return percentage descending, ties broken by original input
order.  `specSortKey recs i j` reads: record index `i` may come before
record index `j`. -/

def specSortKey (recs : List ReturnRecord) (i j : Nat) : Prop :=
  (keysOf recs).getD j 0 < (keysOf recs).getD i 0 ∨
    ((keysOf recs).getD i 0 = (keysOf recs).getD j 0 ∧ i ≤ j)

instance (recs : List ReturnRecord) (i j : Nat) : Decidable (specSortKey recs i j) := by
  unfold specSortKey
  infer_instance

/-- Modelled from the spec: the stable descending sort of the record
list — enumerate the record indices, sort them by descending return with
ties broken by the smaller (earlier) index, and read the records off in
that order. -/
def specStableSortDesc (recs : List ReturnRecord) : List ReturnRecord :=
  (List.insertionSort (specSortKey recs) (List.range recs.length)).map
    (fun i => recs.getD i default)

/-!  C1 and C2. -/

/-- C1: for every non-weekend target date accepted by
`calculate_stock_returns`, the derived comparison day is 1 calendar day
earlier, except on Mondays, where it is 3 days earlier (and is then indeed
the preceding Friday). -/
theorem C1_comparison_day (d : Int) (_h : weekday d < 5) :
    (weekday d = 0 → prevDay d = d - 3 ∧ weekday (prevDay d) = 4) ∧
    (weekday d ≠ 0 → prevDay d = d - 1) := by
  constructor
  · intro h0
    have h0' : (d + 3) % 7 = 0 := h0
    have hp : prevDay d = d - 3 := by simp [prevDay, h0]
    refine ⟨hp, ?_⟩
    rw [hp]
    show (d - 3 + 3) % 7 = 4
    omega
  · intro h0
    simp [prevDay, h0]

/-- C1 witness: 1970-01-05 (day 4) was a Monday; its comparison day is
day 1, the preceding Friday. -/
theorem C1_comparison_day_witness : prevDay 4 = 1 ∧ weekday (prevDay 4) = 4 := by
  have h := (C1_comparison_day 4 (by decide)).1 (by decide)
  refine ⟨?_, h.2⟩
  rw [h.1]
  decide

/-- C2: on a weekend target date the result table is empty and no
provider call is made for any symbol. -/
theorem C2_weekend_no_fetch (provider : String → Int → Int → Option ProviderResponse)
    (nyTz : Int) (stock_list : List String) (d tmin : Int) (h : 5 ≤ weekday d) :
    (calculate_stock_returns provider nyTz stock_list d tmin).table = [] ∧
    (calculate_stock_returns provider nyTz stock_list d tmin).providerCalls = [] := by
  unfold calculate_stock_returns
  rw [if_pos h]
  exact ⟨rfl, rfl⟩

/-- C2 witness: 1970-01-03 (day 2) was a Saturday; with a symbol list
`["AAPL"]` and a provider that would succeed, nothing is fetched and the
table is empty. -/
theorem C2_weekend_no_fetch_witness :
    (calculate_stock_returns (fun _ _ _ => some ⟨0, []⟩) (-300) ["AAPL"] 2 600).table = [] ∧
    (calculate_stock_returns (fun _ _ _ => some ⟨0, []⟩) (-300) ["AAPL"] 2 600).providerCalls = [] :=
  C2_weekend_no_fetch (fun _ _ _ => some ⟨0, []⟩) (-300) ["AAPL"] 2 600 (by decide)

/-!  Permutation facts about the embedded numpy sort: every mutation of
the index list is a swap or an in-segment insertion sort, so the index
list stays a permutation of `[0..n)` — for every input, every fuel, and
every branch (including the heapsort fallback). -/

theorem get_cons_set_perm (x : Nat) : ∀ (xs : List Nat) (k : Nat) (hk : k < xs.length),
    List.Perm (xs.get ⟨k, hk⟩ :: xs.set k x) (x :: xs)
  | y :: ys, 0, _ => by simpa using List.Perm.swap x y ys
  | y :: ys, k + 1, hk => by
    simp only [List.get_cons_succ, List.set_cons_succ]
    have ih := get_cons_set_perm x ys k (by simpa using hk)
    exact ((List.Perm.swap _ _ _).trans (ih.cons y)).trans (List.Perm.swap _ _ _)

theorem set_get_self_eq : ∀ (xs : List Nat) (i : Nat) (hi : i < xs.length),
    xs.set i (xs.get ⟨i, hi⟩) = xs
  | _ :: _, 0, _ => rfl
  | y :: ys, i + 1, hi => by
    simp only [List.get_cons_succ, List.set_cons_succ]
    rw [set_get_self_eq ys i (by simpa using hi)]

theorem set_set_swap_perm (xs : List Nat) (i j : Nat) (hi : i < xs.length) (hj : j < xs.length) :
    List.Perm ((xs.set i (xs.get ⟨j, hj⟩)).set j (xs.get ⟨i, hi⟩)) xs := by
  by_cases hij : i = j
  · subst hij
    rw [List.set_set, set_get_self_eq]
  · have hj' : j < (xs.set i (xs.get ⟨j, hj⟩)).length := by simpa using hj
    have hgj : (xs.set i (xs.get ⟨j, hj⟩)).get ⟨j, hj'⟩ = xs.get ⟨j, hj⟩ := by
      simp [List.getElem_set_ne hij]
    have h1 := get_cons_set_perm (xs.get ⟨i, hi⟩) (xs.set i (xs.get ⟨j, hj⟩)) j hj'
    rw [hgj] at h1
    have h2 := get_cons_set_perm (xs.get ⟨j, hj⟩) xs i hi
    exact (h1.trans h2).cons_inv

theorem lswap_perm (t : List Nat) (i j : Int) : List.Perm (lswap t i j) t := by
  unfold lswap
  split
  · next h =>
    have hi : i.toNat < t.length := by omega
    have hj : j.toNat < t.length := by omega
    have hgi : t.getD i.toNat 0 = t.get ⟨i.toNat, hi⟩ := List.getD_eq_getElem t 0 hi
    have hgj : t.getD j.toNat 0 = t.get ⟨j.toNat, hj⟩ := List.getD_eq_getElem t 0 hj
    rw [hgi, hgj]
    exact set_set_swap_perm t i.toNat j.toNat hi hj
  · exact List.Perm.refl t

theorem insRev_perm (v : List ℚ) (vi : Nat) :
    ∀ acc : List Nat, List.Perm (insRev v vi acc) (vi :: acc)
  | [] => List.Perm.refl _
  | k :: rest => by
    unfold insRev
    split
    · exact ((insRev_perm v vi rest).cons k).trans (List.Perm.swap _ _ _)
    · exact List.Perm.refl _

theorem insFold_perm (v : List ℚ) :
    ∀ (seg acc : List Nat),
      List.Perm (seg.foldl (fun acc i => insRev v i acc) acc) (seg ++ acc)
  | [], _ => by simp
  | i :: seg', acc => by
    have ih := insFold_perm v seg' (insRev v i acc)
    have h1 : List.Perm (seg' ++ insRev v i acc) (seg' ++ (i :: acc)) :=
      List.Perm.append_left seg' (insRev_perm v i acc)
    have h2 : List.Perm (seg' ++ (i :: acc)) (i :: (seg' ++ acc)) := List.perm_middle
    simpa using (ih.trans h1).trans h2

theorem insList_perm (v : List ℚ) (seg : List Nat) : List.Perm (insList v seg) seg := by
  unfold insList
  have h := insFold_perm v seg []
  simpa using (List.reverse_perm _).trans h

theorem take_drop_split (l : List Nat) (a w : Nat) :
    l.take a ++ ((l.drop a).take w ++ l.drop (a + w)) = l := by
  have h2 : l.drop (a + w) = (l.drop a).drop w := by rw [List.drop_drop, Nat.add_comm]
  rw [h2, List.take_append_drop, List.take_append_drop]

theorem insSeg_perm (v : List ℚ) (t : List Nat) (pl pr : Int) :
    List.Perm (insSeg v t pl pr) t := by
  unfold insSeg
  split
  · exact List.Perm.refl t
  · rw [List.append_assoc]
    conv_rhs => rw [← take_drop_split t pl.toNat (pr - pl + 1).toNat]
    exact List.Perm.append_left _ (List.Perm.append (insList_perm v _) (List.Perm.refl _))

theorem siftLoop_perm (v : List ℚ) (base n : Int) :
    ∀ (fuel : Nat) (t : List Nat) (i j : Int),
      List.Perm (siftLoop v base n t i j fuel).1 t
  | 0, _, _, _ => List.Perm.refl _
  | fuel + 1, t, i, j => by
    rw [siftLoop]
    try dsimp only
    split_ifs
    any_goals exact List.Perm.refl _
    all_goals exact (siftLoop_perm v base n fuel _ _ _).trans (lswap_perm t _ _)

theorem heapLoop1_perm (v : List ℚ) (base n : Int) :
    ∀ (fuel : Nat) (t : List Nat) (l : Int),
      List.Perm (heapLoop1 v base n t l fuel) t
  | 0, _, _ => List.Perm.refl _
  | fuel + 1, t, l => by
    rw [heapLoop1]
    try dsimp only
    split_ifs
    · exact (heapLoop1_perm v base n fuel _ _).trans (siftLoop_perm v base n _ t _ _)
    · exact List.Perm.refl t

theorem heapLoop2_perm (v : List ℚ) (base : Int) :
    ∀ (fuel : Nat) (t : List Nat) (n : Int),
      List.Perm (heapLoop2 v base t n fuel) t
  | 0, _, _ => List.Perm.refl _
  | fuel + 1, t, n => by
    rw [heapLoop2]
    try dsimp only
    split_ifs
    · exact ((heapLoop2_perm v base fuel _ _).trans
        (siftLoop_perm v base (n - 1) _ _ _ _)).trans (lswap_perm t _ _)
    · exact List.Perm.refl t

theorem aheapsort_perm (v : List ℚ) (t : List Nat) (pl num : Int) :
    List.Perm (aheapsort v t pl num) t := by
  unfold aheapsort
  exact (heapLoop2_perm v pl _ _ num).trans (heapLoop1_perm v pl num _ t _)

theorem partLoop_perm (v : List ℚ) (vp : ℚ) :
    ∀ (fuel : Nat) (t : List Nat) (pi pj : Int),
      List.Perm (partLoop v vp t pi pj fuel).1 t
  | 0, _, _, _ => List.Perm.refl _
  | fuel + 1, t, pi, pj => by
    rw [partLoop]
    try dsimp only
    split_ifs
    · exact List.Perm.refl t
    · exact (partLoop_perm v vp fuel _ _ _).trans (lswap_perm t _ _)

theorem partitionStep_perm (v : List ℚ) (t : List Nat) (pl pr : Int) :
    List.Perm (partitionStep v t pl pr).1 t := by
  unfold partitionStep
  try dsimp only
  split_ifs
  all_goals refine (lswap_perm _ _ _).trans ((partLoop_perm v _ _ _ _ _).trans ?_)
  all_goals refine (lswap_perm _ _ _).trans ?_
  all_goals first
    | exact List.Perm.refl _
    | exact lswap_perm _ _ _
    | exact (lswap_perm _ _ _).trans (lswap_perm _ _ _)
    | exact (lswap_perm _ _ _).trans ((lswap_perm _ _ _).trans (lswap_perm _ _ _))

theorem aqsLoop_perm (v : List ℚ) :
    ∀ (fuel : Nat) (t : List Nat) (stack : List (Int × Int)) (pl pr depth : Int),
      List.Perm (aqsLoop v t stack pl pr depth fuel) t
  | 0, _, _, _, _, _ => List.Perm.refl _
  | fuel + 1, t, stack, pl, pr, depth => by
    rw [aqsLoop]
    rcases stack with _ | ⟨⟨pl', pr'⟩, rest⟩ <;> dsimp only <;> split_ifs
    all_goals first
      | exact insSeg_perm v t pl pr
      | exact aheapsort_perm v t pl _
      | exact (aqsLoop_perm v fuel _ _ _ _ _).trans (aheapsort_perm v t pl _)
      | exact (aqsLoop_perm v fuel _ _ _ _ _).trans (insSeg_perm v t pl pr)
      | exact (aqsLoop_perm v fuel _ _ _ _ _).trans (partitionStep_perm v t pl pr)

theorem aquicksort_perm (v : List ℚ) :
    List.Perm (aquicksort v) (List.range v.length) := by
  unfold aquicksort
  exact aqsLoop_perm v _ _ _ _ _ _

/-!  From the index permutation to the row permutation: the sorted table
is a permutation of the unsorted record list. -/

theorem revIdx_getD (n p : Nat) (hp : p < n) :
    ((List.range n).reverse).getD p 0 = n - 1 - p := by
  have hl : p < ((List.range n).reverse).length := by simpa using hp
  rw [List.getD_eq_getElem _ 0 hl]
  rw [List.getElem_reverse]
  simp

theorem range_map_sub_eq_reverse (n : Nat) :
    (List.range n).map (fun p => n - 1 - p) = (List.range n).reverse := by
  apply List.ext_getElem
  · simp
  · intro i h1 h2
    simp [List.getElem_reverse, List.getElem_range]

theorem nargsortDesc_perm (keys : List ℚ) :
    List.Perm (nargsortDesc keys) (List.range keys.length) := by
  unfold nargsortDesc
  have hlen : keys.reverse.length = keys.length := List.length_reverse keys
  have horder : List.Perm (aquicksort keys.reverse) (List.range keys.length) := by
    rw [← hlen]
    exact aquicksort_perm keys.reverse
  have hmap : List.Perm
      ((aquicksort keys.reverse).map (fun p => ((List.range keys.length).reverse).getD p 0))
      ((List.range keys.length).map (fun p => ((List.range keys.length).reverse).getD p 0)) :=
    horder.map _
  have hcongr : (List.range keys.length).map (fun p => ((List.range keys.length).reverse).getD p 0)
      = (List.range keys.length).map (fun p => keys.length - 1 - p) := by
    apply List.map_congr_left
    intro p hp
    exact revIdx_getD keys.length p (List.mem_range.mp hp)
  refine (List.reverse_perm _).trans ?_
  rw [hcongr, range_map_sub_eq_reverse] at hmap
  exact hmap.trans (List.reverse_perm _)

theorem map_getD_range_self (l : List ReturnRecord) :
    (List.range l.length).map (fun i => l.getD i default) = l := by
  apply List.ext_getElem
  · simp
  · intro i h1 h2
    simp only [List.getElem_map, List.getElem_range]
    exact List.getD_eq_getElem l default h2

theorem sortValuesDesc_perm (recs : List ReturnRecord) :
    List.Perm (sortValuesDesc recs) recs := by
  unfold sortValuesDesc
  have hk : (keysOf recs).length = recs.length := List.length_map recs _
  have h := (nargsortDesc_perm (keysOf recs)).map (fun i => recs.getD i default)
  rw [hk] at h
  rw [map_getD_range_self recs] at h
  exact h

/-!  The per-symbol loop: each input symbol contributes at most one row,
labelled with that symbol. -/

theorem processSymbol_symbol (provider : String → Int → Int → Option ProviderResponse)
    (nyTz d tmin : Int) (s : String) (r : ReturnRecord)
    (h : processSymbol provider nyTz d tmin s = some r) : r.symbol = s := by
  unfold processSymbol at h
  rcases hP : provider s (prevDay d) (d + 1) with _ | resp <;> rw [hP] at h <;>
    dsimp only at h
  · cases h
  · rcases hM : targetTimeMatches nyTz tmin (targetSet resp d) with _ | ⟨tb, rest⟩ <;>
      rw [hM] at h <;> dsimp only at h
    · cases h
    · rcases hL : (prevSet resp (prevDay d)).getLast? with _ | pb <;> rw [hL] at h <;>
        dsimp only at h
      · cases h
      · cases h
        rfl

theorem symbols_sublist (provider : String → Int → Int → Option ProviderResponse)
    (nyTz d tmin : Int) :
    ∀ sl : List String,
      List.Sublist ((sl.filterMap (processSymbol provider nyTz d tmin)).map (fun r => r.symbol)) sl
  | [] => List.Sublist.refl []
  | s :: sl' => by
    rw [List.filterMap_cons]
    rcases hps : processSymbol provider nyTz d tmin s with _ | r
    · exact (symbols_sublist provider nyTz d tmin sl').cons s
    · rw [List.map_cons]
      rw [processSymbol_symbol provider nyTz d tmin s r hps]
      exact (symbols_sublist provider nyTz d tmin sl').cons₂ s

theorem filterMap_length_countP (f : String → Option ReturnRecord) :
    ∀ l : List String, (l.filterMap f).length = l.countP (fun s => (f s).isSome)
  | [] => rfl
  | s :: l' => by
    rw [List.filterMap_cons, List.countP_cons]
    rcases hf : f s with _ | r
    · simp [hf, filterMap_length_countP f l']
    · simp [hf, filterMap_length_countP f l']

/-- C6: per-symbol failures are skipped silently and independently: the
table has exactly one row per succeeding symbol (in particular every
failing symbol is simply omitted and the rest are still processed), and a
failing symbol's name appears in no row. -/
theorem C6_skip_failures (provider : String → Int → Int → Option ProviderResponse)
    (nyTz : Int) (sl : List String) (d tmin : Int) (h : weekday d < 5) :
    (calculate_stock_returns provider nyTz sl d tmin).table.length
        = sl.countP (fun s => (processSymbol provider nyTz d tmin s).isSome) ∧
    ∀ s, processSymbol provider nyTz d tmin s = none →
      s ∉ (calculate_stock_returns provider nyTz sl d tmin).table.map (fun r => r.symbol) := by
  have hw : ¬ 5 ≤ weekday d := by omega
  unfold calculate_stock_returns
  rw [if_neg hw]
  by_cases he : (sl.filterMap (processSymbol provider nyTz d tmin)).isEmpty
  · rw [if_pos he]
    have hnil : sl.filterMap (processSymbol provider nyTz d tmin) = [] :=
      List.isEmpty_iff.mp he
    constructor
    · rw [← filterMap_length_countP, hnil]
    · intro s _ hmem
      simp at hmem
  · rw [if_neg he]
    have hperm : List.Perm (sortValuesDesc (sl.filterMap (processSymbol provider nyTz d tmin)))
        (sl.filterMap (processSymbol provider nyTz d tmin)) := sortValuesDesc_perm _
    constructor
    · rw [← filterMap_length_countP]
      exact hperm.length_eq
    · intro s hnone hmem
      have hmem' : s ∈ (sl.filterMap (processSymbol provider nyTz d tmin)).map
          (fun r => r.symbol) := (hperm.map (fun r => r.symbol)).mem_iff.mp hmem
      rcases List.mem_map.mp hmem' with ⟨r, hr, hsym⟩
      rcases List.mem_filterMap.mp hr with ⟨s', _, hps'⟩
      have : r.symbol = s' := processSymbol_symbol provider nyTz d tmin s' r hps'
      rw [this] at hsym
      subst hsym
      rw [hps'] at hnone
      cases hnone

/-- C6 witness (spec Scenario B): with `["AAPL", "MSFT"]` and a provider
that fails for `"MSFT"`, exactly one row is produced, carrying `"AAPL"`,
and `"MSFT"` labels no row. -/
theorem C6_skip_failures_witness :
    weekday 5 < 5 ∧
    (calculate_stock_returns
        (fun s _ _ => if s = "AAPL" then some ⟨0, [⟨6360, 100⟩, ⟨7800, 105⟩]⟩ else none)
        0 ["AAPL", "MSFT"] 5 600).table.length
      = (["AAPL", "MSFT"].countP
          (fun s => (processSymbol
            (fun s _ _ => if s = "AAPL" then some ⟨0, [⟨6360, 100⟩, ⟨7800, 105⟩]⟩ else none)
            0 5 600 s).isSome)) := by
  refine ⟨by decide, ?_⟩
  exact (C6_skip_failures
    (fun s _ _ => if s = "AAPL" then some ⟨0, [⟨6360, 100⟩, ⟨7800, 105⟩]⟩ else none)
    0 ["AAPL", "MSFT"] 5 600 (by decide)).1

/-- C8: for every input list and every provider behaviour, the table has
at most one row per input symbol, and duplicate-free input yields a
duplicate-free symbol column. -/
theorem C8_row_invariants (provider : String → Int → Int → Option ProviderResponse)
    (nyTz : Int) (sl : List String) (d tmin : Int) :
    (calculate_stock_returns provider nyTz sl d tmin).table.length ≤ sl.length ∧
    (sl.Nodup →
      ((calculate_stock_returns provider nyTz sl d tmin).table.map (fun r => r.symbol)).Nodup) := by
  unfold calculate_stock_returns
  by_cases hw : 5 ≤ weekday d
  · rw [if_pos hw]
    exact ⟨Nat.zero_le _, fun _ => List.nodup_nil⟩
  · rw [if_neg hw]
    by_cases he : (sl.filterMap (processSymbol provider nyTz d tmin)).isEmpty
    · rw [if_pos he]
      exact ⟨Nat.zero_le _, fun _ => List.nodup_nil⟩
    · rw [if_neg he]
      have hperm : List.Perm (sortValuesDesc (sl.filterMap (processSymbol provider nyTz d tmin)))
          (sl.filterMap (processSymbol provider nyTz d tmin)) := sortValuesDesc_perm _
      constructor
      · show (sortValuesDesc (sl.filterMap (processSymbol provider nyTz d tmin))).length ≤ sl.length
        rw [hperm.length_eq]
        exact List.length_filterMap_le _ sl
      · intro hnd
        show ((sortValuesDesc (sl.filterMap (processSymbol provider nyTz d tmin))).map
          (fun r => r.symbol)).Nodup
        have hsub := symbols_sublist provider nyTz d tmin sl
        have hnd' : ((sl.filterMap (processSymbol provider nyTz d tmin)).map
            (fun r => r.symbol)).Nodup := hnd.sublist hsub
        exact ((hperm.map (fun r => r.symbol)).nodup_iff).mpr hnd'

/-- C8 witness: a duplicate-free two-symbol input with one succeeding
symbol gives a table of at most 2 rows with a duplicate-free symbol
column. -/
theorem C8_row_invariants_witness :
    (calculate_stock_returns
        (fun s _ _ => if s = "AAPL" then some ⟨0, [⟨6360, 100⟩, ⟨7800, 105⟩]⟩ else none)
        0 ["AAPL", "MSFT"] 5 600).table.length ≤ 2 ∧
    ((calculate_stock_returns
        (fun s _ _ => if s = "AAPL" then some ⟨0, [⟨6360, 100⟩, ⟨7800, 105⟩]⟩ else none)
        0 ["AAPL", "MSFT"] 5 600).table.map (fun r => r.symbol)).Nodup := by
  have h := C8_row_invariants
    (fun s _ _ => if s = "AAPL" then some ⟨0, [⟨6360, 100⟩, ⟨7800, 105⟩]⟩ else none)
    0 ["AAPL", "MSFT"] 5 600
  exact ⟨h.1, h.2 (by decide)⟩

/-!  Stability of the small-range path: for at most 16 elements numpy's
quicksort never partitions, so the whole argsort is the (stable)
insertion sort, and pandas' double reversal turns a stable ascending
argsort into a stable descending one. -/

theorem lexLT_trans (v : List ℚ) (a b c : Nat)
    (h1 : lexLT v a b) (h2 : lexLT v b c) : lexLT v a c := by
  unfold lexLT at h1 h2 ⊢
  rcases h1 with h1 | ⟨e1, l1⟩ <;> rcases h2 with h2 | ⟨e2, l2⟩
  · exact Or.inl (h1.trans h2)
  · exact Or.inl (by rw [← e2]; exact h1)
  · exact Or.inl (by rw [e1]; exact h2)
  · exact Or.inr ⟨e1.trans e2, l1.trans l2⟩

theorem insRev_pairwise (v : List ℚ) (vi : Nat) :
    ∀ acc : List Nat,
      acc.Pairwise (fun a b => lexLT v b a) →
      (∀ k ∈ acc, k < vi) →
      (insRev v vi acc).Pairwise (fun a b => lexLT v b a)
  | [], _, _ => by simp [insRev]
  | k :: rest, hacc, hlt => by
    rw [insRev]
    split_ifs with hv
    · rw [List.pairwise_cons] at hacc ⊢
      refine ⟨?_, insRev_pairwise v vi rest hacc.2
        (fun m hm => hlt m (List.mem_cons_of_mem k hm))⟩
      intro m hm
      have hm' : m = vi ∨ m ∈ rest := List.mem_cons.mp ((insRev_perm v vi rest).mem_iff.mp hm)
      rcases hm' with rfl | hm'
      · exact Or.inl hv
      · exact hacc.1 m hm'
    · rw [List.pairwise_cons]
      have hkvi : lexLT v k vi := by
        rcases lt_or_eq_of_le (not_lt.mp hv) with h | h
        · exact Or.inl h
        · exact Or.inr ⟨h, hlt k (List.mem_cons_self k rest)⟩
      constructor
      · intro m hm
        rcases List.mem_cons.mp hm with rfl | hm'
        · exact hkvi
        · exact lexLT_trans v m k vi ((List.pairwise_cons.mp hacc).1 m hm') hkvi
      · exact hacc

theorem insFold_pairwise (v : List ℚ) :
    ∀ (seg acc : List Nat),
      seg.Pairwise (· < ·) →
      (∀ i ∈ seg, ∀ k ∈ acc, k < i) →
      acc.Pairwise (fun a b => lexLT v b a) →
      (seg.foldl (fun acc i => insRev v i acc) acc).Pairwise (fun a b => lexLT v b a)
  | [], _, _, _, hacc => hacc
  | i :: seg', acc, hseg, hcross, hacc => by
    rw [List.foldl_cons]
    refine insFold_pairwise v seg' (insRev v i acc) (List.pairwise_cons.mp hseg).2 ?_ ?_
    · intro i' hi' k hk
      have hk' : k = i ∨ k ∈ acc := List.mem_cons.mp ((insRev_perm v i acc).mem_iff.mp hk)
      rcases hk' with rfl | hk'
      · exact (List.pairwise_cons.mp hseg).1 i' hi'
      · exact hcross i' (List.mem_cons_of_mem i hi') k hk'
    · exact insRev_pairwise v i acc hacc (fun k hk => hcross i (List.mem_cons_self i seg') k hk)

theorem insList_pairwise_of_incr (v : List ℚ) (seg : List Nat)
    (hseg : seg.Pairwise (· < ·)) : (insList v seg).Pairwise (lexLT v) := by
  unfold insList
  rw [List.pairwise_reverse]
  exact insFold_pairwise v seg [] hseg (by simp) List.Pairwise.nil

theorem aquicksort_small (v : List ℚ) (hn : v.length ≤ 16) :
    aquicksort v = insList v (List.range v.length) := by
  unfold aquicksort
  have hfuel : 4 * v.length + 64 = (4 * v.length + 63) + 1 := by omega
  rw [hfuel, aqsLoop]
  have hguard : ¬((v.length : Int) - 1 - 0 > 15) := by omega
  rw [if_neg hguard]
  show insSeg v (List.range v.length) 0 ((v.length : Int) - 1) = _
  by_cases h0 : v.length = 0
  · simp [h0, insSeg, insList]
  · by_cases h1 : v.length = 1
    · simp [h1, insSeg, insList, insRev, List.range_succ]
    · unfold insSeg
      rw [if_neg (by omega)]
      have ha : (0 : Int).toNat = 0 := rfl
      have hw : ((v.length : Int) - 1 - 0 + 1).toNat = v.length := by omega
      rw [ha, hw]
      simp [List.take_of_length_le, List.drop_of_length_le]

theorem getD_reverse_q (keys : List ℚ) (p : Nat) (hp : p < keys.length) :
    keys.reverse.getD p 0 = keys.getD (keys.length - 1 - p) 0 := by
  have hl : p < keys.reverse.length := by simpa using hp
  rw [List.getD_eq_getElem _ 0 hl, List.getElem_reverse,
      List.getD_eq_getElem _ 0 (by omega)]

theorem nargsortDesc_pairwise_small (keys : List ℚ) (hn : keys.length ≤ 16) :
    (nargsortDesc keys).Pairwise
      (fun i j => keys.getD j 0 < keys.getD i 0 ∨
        (keys.getD i 0 = keys.getD j 0 ∧ i < j)) := by
  unfold nargsortDesc
  have hrevlen : keys.reverse.length = keys.length := List.length_reverse keys
  have hsmall : aquicksort keys.reverse = insList keys.reverse (List.range keys.length) := by
    rw [aquicksort_small keys.reverse (by rw [hrevlen]; exact hn), hrevlen]
  rw [hsmall]
  rw [List.pairwise_reverse, List.pairwise_map]
  have hpair := insList_pairwise_of_incr keys.reverse (List.range keys.length)
    (List.pairwise_lt_range keys.length)
  have hmem : ∀ p ∈ insList keys.reverse (List.range keys.length), p < keys.length := by
    intro p hp
    exact List.mem_range.mp ((insList_perm keys.reverse (List.range keys.length)).mem_iff.mp hp)
  refine List.Pairwise.imp_of_mem ?_ hpair
  intro p q hp hq hlex
  have hpn : p < keys.length := hmem p hp
  have hqn : q < keys.length := hmem q hq
  have hfp : ((List.range keys.length).reverse).getD p 0 = keys.length - 1 - p :=
    revIdx_getD keys.length p hpn
  have hfq : ((List.range keys.length).reverse).getD q 0 = keys.length - 1 - q :=
    revIdx_getD keys.length q hqn
  have hvp : keys.reverse.getD p 0 = keys.getD (keys.length - 1 - p) 0 :=
    getD_reverse_q keys p hpn
  have hvq : keys.reverse.getD q 0 = keys.getD (keys.length - 1 - q) 0 :=
    getD_reverse_q keys q hqn
  show keys.getD (((List.range keys.length).reverse).getD p 0) 0
      < keys.getD (((List.range keys.length).reverse).getD q 0) 0 ∨ _
  rw [hfp, hfq]
  unfold lexLT at hlex
  rw [hvp, hvq] at hlex
  rcases hlex with hlt | ⟨heq, hpq⟩
  · exact Or.inl hlt
  · exact Or.inr ⟨heq.symm, by omega⟩

theorem keysOf_getD (recs : List ReturnRecord) (i : Nat) (hi : i < recs.length) :
    (keysOf recs).getD i 0 = (recs.getD i default).retPct := by
  unfold keysOf
  rw [List.getD_eq_getElem _ 0 (by simpa using hi), List.getElem_map,
      List.getD_eq_getElem _ default hi]

/-!  Evaluation helpers: unfold one successful per-symbol run, and reduce
the calculator to the sort of its record list. -/

theorem processSymbol_eval (provider : String → Int → Int → Option ProviderResponse)
    (nyTz d tmin : Int) (s : String) (resp : ProviderResponse) (tb : Bar)
    (rest : List Bar) (pb : Bar)
    (hP : provider s (prevDay d) (d + 1) = some resp)
    (hM : targetTimeMatches nyTz tmin (targetSet resp d) = tb :: rest)
    (hL : (prevSet resp (prevDay d)).getLast? = some pb) :
    processSymbol provider nyTz d tmin s
      = some ⟨s, round2 pb.close, round2 tb.close, round2 (exactReturn tb.close pb.close)⟩ := by
  unfold processSymbol
  rw [hP]
  dsimp only
  rw [hM]
  dsimp only
  rw [hL]

theorem exactReturnOf_eval (provider : String → Int → Int → Option ProviderResponse)
    (nyTz d tmin : Int) (s : String) (resp : ProviderResponse) (tb : Bar)
    (rest : List Bar) (pb : Bar)
    (hP : provider s (prevDay d) (d + 1) = some resp)
    (hM : targetTimeMatches nyTz tmin (targetSet resp d) = tb :: rest)
    (hL : (prevSet resp (prevDay d)).getLast? = some pb) :
    exactReturnOf provider nyTz d tmin s = some (exactReturn tb.close pb.close) := by
  unfold exactReturnOf
  rw [hP]
  dsimp only
  rw [hM]
  dsimp only
  rw [hL]

theorem calc_table_sorted (provider : String → Int → Int → Option ProviderResponse)
    (nyTz : Int) (sl : List String) (d tmin : Int)
    (hd : weekday d < 5)
    (hne : sl.filterMap (processSymbol provider nyTz d tmin) ≠ []) :
    (calculate_stock_returns provider nyTz sl d tmin).table
      = sortValuesDesc (sl.filterMap (processSymbol provider nyTz d tmin)) := by
  unfold calculate_stock_returns
  rw [if_neg (by omega : ¬ 5 ≤ weekday d)]
  rw [if_neg (by simpa [List.isEmpty_iff] using hne)]

/-- C3 counterexample: with the seventeen all-tying symbols of `c3Syms`,
the produced table is non-empty but its rows with equal `Return (%)` do
not keep their input order — pandas' default numpy quicksort takes its
partitioning path at 17 rows and reorders ties, so the claimed stable
tie-breaking fails. -/
theorem C3_stable_sort_counterexample :
    (calculate_stock_returns c3P 0 c3Syms 5 600).table ≠ [] ∧
    ¬ ((calculate_stock_returns c3P 0 c3Syms 5 600).table.Pairwise
        (fun a b => b.retPct ≤ a.retPct ∧
          (a.retPct = b.retPct →
            c3Syms.indexOf a.symbol < c3Syms.indexOf b.symbol))) := by
  have hone : ∀ s : String, processSymbol c3P 0 5 600 s = some ⟨s, 1, 1, 0⟩ := by
    intro s
    have h := processSymbol_eval c3P 0 5 600 s c3Resp ⟨7800, 1⟩ [] ⟨6360, 1⟩ rfl
      (by decide) (by decide)
    rw [h]
    norm_num [round2, roundHalfEven, exactReturn]
  have hfun : processSymbol c3P 0 5 600
      = fun s => some ((fun s => (⟨s, 1, 1, 0⟩ : ReturnRecord)) s) := funext hone
  have hrecs : c3Syms.filterMap (processSymbol c3P 0 5 600)
      = c3Syms.map (fun s => (⟨s, 1, 1, 0⟩ : ReturnRecord)) := by
    rw [hfun]
    exact List.filterMap_eq_map _ ▸ rfl
  have hne : c3Syms.filterMap (processSymbol c3P 0 5 600) ≠ [] := by
    rw [hrecs]
    simp [c3Syms]
  have htab := calc_table_sorted c3P 0 c3Syms 5 600 (by decide) hne
  rw [hrecs] at htab
  rw [htab]
  constructor
  · decide
  · decide

/-!  C4: in which timezone are the date partitions computed? -/

/-- C4 counterexample: a bar stamped 00:60 UTC on day 0 (19:00 Eastern of
day −1).  Line 63 keeps it in the target set of day 0 because the date is
read in the index's original timezone (UTC here), not Eastern; likewise
line 68 fails to put it in the previous set of day −1, although its
Eastern date is −1.  So the partitions are not the Eastern-date
partitions the claim describes. -/
theorem C4_partition_counterexample :
    targetSet ⟨0, [⟨60, 1⟩]⟩ 0
        ≠ (⟨0, [⟨60, 1⟩]⟩ : ProviderResponse).bars.filter
            (fun b => localDate (-300) b = 0) ∧
    prevSet ⟨0, [⟨60, 1⟩]⟩ (-1)
        ≠ (⟨0, [⟨60, 1⟩]⟩ : ProviderResponse).bars.filter
            (fun b => localDate (-300) b = -1) := by
  constructor
  · decide
  · decide

/-- C4 amended: the target-set and previous-set date comparisons are made
against dates read in the provider's original index timezone; only the
time-of-day comparison that selects the target bar is made after the
conversion to US Eastern. -/
theorem C4_partition_timezones (provider : String → Int → Int → Option ProviderResponse)
    (nyTz d tmin : Int) (s : String) (rec : ReturnRecord)
    (h : processSymbol provider nyTz d tmin s = some rec) :
    ∃ resp tb rest,
      provider s (prevDay d) (d + 1) = some resp ∧
      targetTimeMatches nyTz tmin (targetSet resp d) = tb :: rest ∧
      (∀ b, b ∈ targetSet resp d ↔ b ∈ resp.bars ∧ localDate resp.tz b = d) ∧
      (∀ b, b ∈ prevSet resp (prevDay d) ↔ b ∈ resp.bars ∧ localDate resp.tz b = prevDay d) ∧
      localDate resp.tz tb = d ∧ localTime nyTz tb = tmin := by
  unfold processSymbol at h
  rcases hP : provider s (prevDay d) (d + 1) with _ | resp <;> rw [hP] at h <;>
    dsimp only at h
  · cases h
  rcases hM : targetTimeMatches nyTz tmin (targetSet resp d) with _ | ⟨tb, rest⟩ <;>
    rw [hM] at h <;> dsimp only at h
  · cases h
  refine ⟨resp, tb, rest, rfl, hM, ?_, ?_, ?_, ?_⟩
  · intro b
    unfold targetSet
    simp [List.mem_filter]
  · intro b
    unfold prevSet
    simp [List.mem_filter]
  · have htb : tb ∈ targetSet resp d := by
      have h1 : tb ∈ targetTimeMatches nyTz tmin (targetSet resp d) := by
        rw [hM]
        exact List.mem_cons_self tb rest
      unfold targetTimeMatches at h1
      exact (List.mem_filter.mp h1).1
    unfold targetSet at htb
    have := (List.mem_filter.mp htb).2
    simpa using this
  · have h1 : tb ∈ targetTimeMatches nyTz tmin (targetSet resp d) := by
      rw [hM]
      exact List.mem_cons_self tb rest
    unfold targetTimeMatches at h1
    have := (List.mem_filter.mp h1).2
    simpa using this

/-- C4 amended witness: the two-symbol fixture is processed successfully,
so the partition characterisation holds for it. -/
theorem C4_partition_timezones_witness :
    processSymbol c3wP 0 5 600 "A" = some ⟨"A", 100, 105, 5⟩ ∧
    (∃ resp tb rest,
      c3wP "A" (prevDay 5) (5 + 1) = some resp ∧
      targetTimeMatches 0 600 (targetSet resp 5) = tb :: rest ∧
      (∀ b, b ∈ targetSet resp 5 ↔ b ∈ resp.bars ∧ localDate resp.tz b = 5) ∧
      (∀ b, b ∈ prevSet resp (prevDay 5) ↔ b ∈ resp.bars ∧ localDate resp.tz b = prevDay 5) ∧
      localDate resp.tz tb = 5 ∧ localTime 0 tb = 600) := by
  have hA : processSymbol c3wP 0 5 600 "A" = some ⟨"A", 100, 105, 5⟩ := by
    have h := processSymbol_eval c3wP 0 5 600 "A" c3wRespA
      ⟨7800, 105⟩ [] ⟨6360, 100⟩ (by decide) (by decide) (by decide)
    rw [h]
    norm_num [round2, roundHalfEven, exactReturn]
  exact ⟨hA, C4_partition_timezones c3wP 0 5 600 "A" ⟨"A", 100, 105, 5⟩ hA⟩

/-!  C5: which bar supplies the previous close? -/

/-- C5 counterexample: with previous-day bars out of chronological order,
the record is built from the positionally last bar (close 200), not from
the chronologically last one (close 100, timestamp 6360): both the
`Previous Close` and the `Return (%)` fields differ from the values the
claim derives from the chronologically last bar. -/
theorem C5_chron_last_counterexample :
    processSymbol c5P 0 5 600 "A"
      = some ⟨"A", round2 200, round2 105, round2 (exactReturn 105 200)⟩ ∧
    isChronLast (prevSet c5Resp (prevDay 5)) ⟨6360, 100⟩ ∧
    round2 (200 : ℚ) ≠ round2 (100 : ℚ) ∧
    round2 (exactReturn 105 200) ≠ round2 (exactReturn 105 100) := by
  refine ⟨?_, by decide, ?_, ?_⟩
  · exact processSymbol_eval c5P 0 5 600 "A" c5Resp ⟨7800, 105⟩ [] ⟨6300, 200⟩ rfl
      (by decide) (by decide)
  · norm_num [round2, roundHalfEven]
  · norm_num [round2, roundHalfEven, exactReturn]

/-- C5 amended: for every successfully processed symbol the three numeric
fields are the 2-decimal roundings of the previous close, the target
price, and `(target − prev)/prev·100`, where the previous close is the
close of the bar that appears **last in the provider's order** within the
previous set (`iloc[-1]`), and the target price is the close of the first
bar matching the target time. -/
theorem C5_fields_formula (provider : String → Int → Int → Option ProviderResponse)
    (nyTz d tmin : Int) (s : String) (rec : ReturnRecord)
    (h : processSymbol provider nyTz d tmin s = some rec) :
    ∃ resp tb rest pb,
      provider s (prevDay d) (d + 1) = some resp ∧
      targetTimeMatches nyTz tmin (targetSet resp d) = tb :: rest ∧
      (prevSet resp (prevDay d)).getLast? = some pb ∧
      rec = ⟨s, round2 pb.close, round2 tb.close, round2 (exactReturn tb.close pb.close)⟩ := by
  unfold processSymbol at h
  rcases hP : provider s (prevDay d) (d + 1) with _ | resp <;> rw [hP] at h <;>
    dsimp only at h
  · cases h
  rcases hM : targetTimeMatches nyTz tmin (targetSet resp d) with _ | ⟨tb, rest⟩ <;>
    rw [hM] at h <;> dsimp only at h
  · cases h
  rcases hL : (prevSet resp (prevDay d)).getLast? with _ | pb <;> rw [hL] at h <;>
    dsimp only at h
  · cases h
  cases h
  exact ⟨resp, tb, rest, pb, rfl, hM, hL, rfl⟩

/-- C5 amended witness: the formula characterisation holds on the
two-symbol fixture. -/
theorem C5_fields_formula_witness :
    processSymbol c3wP 0 5 600 "A" = some ⟨"A", 100, 105, 5⟩ ∧
    (∃ resp tb rest pb,
      c3wP "A" (prevDay 5) (5 + 1) = some resp ∧
      targetTimeMatches 0 600 (targetSet resp 5) = tb :: rest ∧
      (prevSet resp (prevDay 5)).getLast? = some pb ∧
      (⟨"A", 100, 105, 5⟩ : ReturnRecord)
        = ⟨"A", round2 pb.close, round2 tb.close, round2 (exactReturn tb.close pb.close)⟩) := by
  have hA : processSymbol c3wP 0 5 600 "A" = some ⟨"A", 100, 105, 5⟩ := by
    have h := processSymbol_eval c3wP 0 5 600 "A" c3wRespA
      ⟨7800, 105⟩ [] ⟨6360, 100⟩ (by decide) (by decide) (by decide)
    rw [h]
    norm_num [round2, roundHalfEven, exactReturn]
  exact ⟨hA, C5_fields_formula c3wP 0 5 600 "A" ⟨"A", 100, 105, 5⟩ hA⟩

/-!  C9: several bars matching the target time. -/

/-- C9: when more than one bar of the target set matches the target
time-of-day, processing succeeds using the close of the first such bar in
provider order (`.values[0]`); the extra matches are ignored. -/
theorem C9_first_match_used (provider : String → Int → Int → Option ProviderResponse)
    (nyTz d tmin : Int) (s : String) (resp : ProviderResponse)
    (tb b2 : Bar) (rest : List Bar) (pb : Bar)
    (hP : provider s (prevDay d) (d + 1) = some resp)
    (hM : targetTimeMatches nyTz tmin (targetSet resp d) = tb :: b2 :: rest)
    (hL : (prevSet resp (prevDay d)).getLast? = some pb) :
    processSymbol provider nyTz d tmin s
      = some ⟨s, round2 pb.close, round2 tb.close, round2 (exactReturn tb.close pb.close)⟩ :=
  processSymbol_eval provider nyTz d tmin s resp tb (b2 :: rest) pb hP hM hL

/-- C9 witness: with a duplicated target-time row (closes 105 then 999),
the record uses 105 and succeeds. -/
theorem C9_first_match_used_witness :
    targetTimeMatches 0 600 (targetSet c9Resp 5) = [⟨7800, 105⟩, ⟨7800, 999⟩] ∧
    processSymbol c9P 0 5 600 "A" = some ⟨"A", 100, 105, 5⟩ := by
  refine ⟨by decide, ?_⟩
  have h := C9_first_match_used c9P 0 5 600 "A" c9Resp ⟨7800, 105⟩ ⟨7800, 999⟩ []
    ⟨6360, 100⟩ rfl (by decide) (by decide)
  rw [h]
  norm_num [round2, roundHalfEven, exactReturn]

/-!  C10: the sort key is the rounded return. -/

theorem processSymbol_retPct_round2 (provider : String → Int → Int → Option ProviderResponse)
    (nyTz d tmin : Int) (s : String) (rec : ReturnRecord) (e : ℚ)
    (h : processSymbol provider nyTz d tmin s = some rec)
    (he : exactReturnOf provider nyTz d tmin s = some e) :
    rec.retPct = round2 e := by
  unfold processSymbol at h
  unfold exactReturnOf at he
  rcases hP : provider s (prevDay d) (d + 1) with _ | resp <;> rw [hP] at h he <;>
    dsimp only at h he
  · cases h
  rcases hM : targetTimeMatches nyTz tmin (targetSet resp d) with _ | ⟨tb, rest⟩ <;>
    rw [hM] at h he <;> dsimp only at h he
  · cases h
  rcases hL : (prevSet resp (prevDay d)).getLast? with _ | pb <;> rw [hL] at h he <;>
    dsimp only at h he
  · cases h
  cases h
  cases he
  rfl

/-- C10: the `Return (%)` value stored in a row — the column the sort is
keyed on — is the 2-decimal rounding of the exact return, so two symbols
whose exact returns differ only beyond the second decimal place carry
equal sort keys and compare equal for ordering purposes. -/
theorem C10_rounded_ordering (provider : String → Int → Int → Option ProviderResponse)
    (nyTz d tmin : Int) (s1 s2 : String) (r1 r2 : ReturnRecord) (e1 e2 : ℚ)
    (h1 : processSymbol provider nyTz d tmin s1 = some r1)
    (h2 : processSymbol provider nyTz d tmin s2 = some r2)
    (he1 : exactReturnOf provider nyTz d tmin s1 = some e1)
    (he2 : exactReturnOf provider nyTz d tmin s2 = some e2)
    (_hne : e1 ≠ e2) (hr : round2 e1 = round2 e2) :
    r1.retPct = r2.retPct := by
  rw [processSymbol_retPct_round2 provider nyTz d tmin s1 r1 e1 h1 he1,
      processSymbol_retPct_round2 provider nyTz d tmin s2 r2 e2 h2 he2, hr]

/-- C10 witness: exact returns 0.001% and 0.002% differ but both round to
0.00, and the two rows carry equal `Return (%)` keys. -/
theorem C10_rounded_ordering_witness :
    ((1 : ℚ)/1000 ≠ (2 : ℚ)/1000) ∧ round2 ((1 : ℚ)/1000) = round2 ((2 : ℚ)/1000) ∧
    (⟨"A", round2 100000, round2 100001, round2 (exactReturn 100001 100000)⟩
        : ReturnRecord).retPct
      = (⟨"B", round2 100000, round2 100002, round2 (exactReturn 100002 100000)⟩
        : ReturnRecord).retPct := by
  have hA := processSymbol_eval c10P 0 5 600 "A" c10RespA
    ⟨7800, 100001⟩ [] ⟨6360, 100000⟩ (by decide) (by decide) (by decide)
  have hB := processSymbol_eval c10P 0 5 600 "B" c10RespB
    ⟨7800, 100002⟩ [] ⟨6360, 100000⟩ (by decide) (by decide) (by decide)
  have heA := exactReturnOf_eval c10P 0 5 600 "A" c10RespA
    ⟨7800, 100001⟩ [] ⟨6360, 100000⟩ (by decide) (by decide) (by decide)
  have heB := exactReturnOf_eval c10P 0 5 600 "B" c10RespB
    ⟨7800, 100002⟩ [] ⟨6360, 100000⟩ (by decide) (by decide) (by decide)
  have heA' : exactReturnOf c10P 0 5 600 "A" = some ((1 : ℚ)/1000) := by
    rw [heA]
    norm_num [exactReturn]
  have heB' : exactReturnOf c10P 0 5 600 "B" = some ((2 : ℚ)/1000) := by
    rw [heB]
    norm_num [exactReturn]
  refine ⟨by norm_num, by norm_num [round2, roundHalfEven], ?_⟩
  exact C10_rounded_ordering c10P 0 5 600 "A" "B" _ _ ((1 : ℚ)/1000) ((2 : ℚ)/1000)
    hA hB heA' heB' (by norm_num) (by norm_num [round2, roundHalfEven])

/-!  C7: the presentation layer's symbol-list derivation. -/

/-- C7 counterexample: a raw text repeating `AAPL` produces a list with a
duplicate — line 134 never de-duplicates. -/
theorem C7_dedup_counterexample : ¬ (parseSymbols "AAPL\nAAPL").Nodup := by decide

theorem filter_map_count (p : String → Bool) (f : String → String) (sym : String) :
    ∀ lines : List String,
      ((lines.filter p).map f).count sym
        = lines.countP (fun s => p s && (f s == sym))
  | [] => rfl
  | a :: l => by
    rw [List.countP_cons]
    by_cases hp : p a
    · rw [List.filter_cons_of_pos hp, List.map_cons]
      by_cases hf : f a == sym
      · simp [List.count_cons, hp, hf, filter_map_count p f sym l]
      · simp [List.count_cons, hp, hf, filter_map_count p f sym l]
    · rw [List.filter_cons_of_neg hp]
      simp [hp, filter_map_count p f sym l]

/-- C7 amended: the list handed to the calculator is derived by dropping
blank lines and trimming and uppercasing the rest, in order, with **no**
de-duplication: each symbol occurs once per non-blank raw line that
normalises to it, so repeated raw lines yield duplicate symbols. -/
theorem C7_no_dedup (raw : String) (sym : String) :
    (parseSymbols raw).count sym
      = (pySplitNewlines raw).countP
          (fun s => !(pyStrip s).isEmpty && (pyUpper (pyStrip s) == sym)) := by
  unfold parseSymbols
  exact filter_map_count _ _ sym _

/-!  Toolbox for the sortedness proof: reading positions through `set`,
`lswap`, and the `localMod` algebra. -/

theorem getD_set_ne (t : List Nat) (n x a : Nat) (h : x ≠ n) :
    (t.set n a).getD x 0 = t.getD x 0 := by
  by_cases hx : x < t.length
  · rw [List.getD_eq_getElem _ 0 (by simpa using hx), List.getD_eq_getElem _ 0 hx]
    simp [List.getElem_set_ne (show n ≠ x by omega)]
  · rw [List.getD_eq_default _ 0 (by simpa using not_lt.mp hx),
        List.getD_eq_default _ 0 (not_lt.mp hx)]

theorem getD_set_self (t : List Nat) (n a : Nat) (h : n < t.length) :
    (t.set n a).getD n 0 = a := by
  rw [List.getD_eq_getElem _ 0 (by simpa using h)]
  exact List.getElem_set_self _

theorem lswap_length (t : List Nat) (i j : Int) : (lswap t i j).length = t.length := by
  unfold lswap
  split
  · simp
  · rfl

theorem lswap_eq (t : List Nat) (i j : Int)
    (h : 0 ≤ i ∧ i < (t.length : Int) ∧ 0 ≤ j ∧ j < (t.length : Int)) :
    lswap t i j = (t.set i.toNat (t.getD j.toNat 0)).set j.toNat (t.getD i.toNat 0) := by
  unfold lswap
  rw [if_pos h]

theorem vAt_lswap (v : List ℚ) (t : List Nat) (i j : Int)
    (hi : 0 ≤ i ∧ i < (t.length : Int)) (hj : 0 ≤ j ∧ j < (t.length : Int)) (x : Int)
    (hx : 0 ≤ x) :
    vAt v (lswap t i j) x
      = if x = i then vAt v t j else if x = j then vAt v t i else vAt v t x := by
  rw [lswap_eq t i j ⟨hi.1, hi.2, hj.1, hj.2⟩]
  unfold vAt
  by_cases hxj : x = j
  · rw [hxj, getD_set_self _ _ _ (by simp; omega)]
    by_cases hxi : x = i
    · rw [show j = i from by omega, if_pos rfl]
    · rw [if_neg (show ¬ j = i from by omega), if_pos rfl]
  · rw [getD_set_ne _ _ _ _ (by omega)]
    by_cases hxi : x = i
    · rw [hxi, getD_set_self _ _ _ (by omega), if_pos rfl]
    · rw [getD_set_ne _ _ _ _ (by omega), if_neg hxi, if_neg hxj]

theorem localMod_refl (v : List ℚ) (lo hi : Int) (t : List Nat) :
    localMod v lo hi t t := by
  exact ⟨rfl, fun x _ => rfl, fun x h1 h2 h3 h4 => ⟨x, h1, h2, h3, h4, rfl⟩⟩

theorem localMod_trans (v : List ℚ) (lo hi : Int) (t1 t2 t3 : List Nat)
    (h12 : localMod v lo hi t1 t2) (h23 : localMod v lo hi t2 t3) :
    localMod v lo hi t1 t3 := by
  obtain ⟨hl12, ha12, hk12⟩ := h12
  obtain ⟨hl23, ha23, hk23⟩ := h23
  refine ⟨hl23.trans hl12, fun x hx => (ha23 x hx).trans (ha12 x hx), ?_⟩
  intro x h1 h2 h3 h4
  obtain ⟨y, hy1, hy2, hy3, hy4, hy5⟩ := hk23 x h1 h2 h3 (by omega)
  obtain ⟨z, hz1, hz2, hz3, hz4, hz5⟩ := hk12 y hy1 hy2 hy3 (by omega)
  exact ⟨z, hz1, hz2, hz3, hz4, hy5.trans hz5⟩

theorem localMod_lswap (v : List ℚ) (lo hi : Int) (t : List Nat) (i j : Int)
    (hlo : 0 ≤ lo) (hhi : hi < (t.length : Int))
    (hi1 : lo ≤ i) (hi2 : i ≤ hi) (hj1 : lo ≤ j) (hj2 : j ≤ hi) :
    localMod v lo hi t (lswap t i j) := by
  have hbi : 0 ≤ i ∧ i < (t.length : Int) := ⟨by omega, by omega⟩
  have hbj : 0 ≤ j ∧ j < (t.length : Int) := ⟨by omega, by omega⟩
  refine ⟨lswap_length t i j, ?_, ?_⟩
  · intro x hx
    rw [lswap_eq t i j ⟨hbi.1, hbi.2, hbj.1, hbj.2⟩]
    rw [getD_set_ne _ _ _ _ (by omega), getD_set_ne _ _ _ _ (by omega)]
  · intro x h1 h2 h3 h4
    rw [vAt_lswap v t i j hbi hbj x h3]
    by_cases hxi : x = i
    · exact ⟨j, hj1, hj2, by omega, by omega, by rw [if_pos hxi]⟩
    · by_cases hxj : x = j
      · exact ⟨i, hi1, hi2, by omega, by omega, by rw [if_neg hxi, if_pos hxj]⟩
      · exact ⟨x, h1, h2, h3, h4, by rw [if_neg hxi, if_neg hxj]⟩

theorem localMod_mono (v : List ℚ) (lo hi lo' hi' : Int) (t t' : List Nat)
    (hlo : lo' ≤ lo) (hhi : hi ≤ hi')
    (h : localMod v lo hi t t') : localMod v lo' hi' t t' := by
  obtain ⟨hl, ha, hk⟩ := h
  refine ⟨hl, fun x hx => ha x (by omega), ?_⟩
  intro x h1 h2 h3 h4
  by_cases hin : lo ≤ x ∧ x ≤ hi
  · obtain ⟨y, hy1, hy2, hy3, hy4, hy5⟩ := hk x hin.1 hin.2 h3 h4
    exact ⟨y, by omega, by omega, hy3, hy4, hy5⟩
  · refine ⟨x, h1, h2, h3, h4, ?_⟩
    unfold vAt
    rw [ha x.toNat (by omega)]

theorem vAt_agree_of_localMod (v : List ℚ) (lo hi : Int) (t t' : List Nat)
    (h : localMod v lo hi t t') (x : Int) (hx : ¬ inSeg lo hi x) (hx0 : 0 ≤ x) :
    vAt v t' x = vAt v t x := by
  unfold vAt
  unfold inSeg at hx
  rw [h.2.1 x.toNat (by omega)]

/-!  The insertion sort of a segment: values along `insList` ascend, and
`insSeg` is a modification local to `[pl, pr]` that leaves the segment
internally sorted. -/

theorem insRev_pairwise_le (v : List ℚ) (vi : Nat) :
    ∀ acc : List Nat,
      acc.Pairwise (fun a b => v.getD b 0 ≤ v.getD a 0) →
      (insRev v vi acc).Pairwise (fun a b => v.getD b 0 ≤ v.getD a 0)
  | [], _ => by simp [insRev]
  | k :: rest, hacc => by
    rw [insRev]
    split_ifs with hv
    · rw [List.pairwise_cons] at hacc ⊢
      refine ⟨?_, insRev_pairwise_le v vi rest hacc.2⟩
      intro m hm
      have hm' : m = vi ∨ m ∈ rest := List.mem_cons.mp ((insRev_perm v vi rest).mem_iff.mp hm)
      rcases hm' with rfl | hm'
      · exact le_of_lt hv
      · exact hacc.1 m hm'
    · rw [List.pairwise_cons]
      constructor
      · intro m hm
        rcases List.mem_cons.mp hm with rfl | hm'
        · exact not_lt.mp hv
        · exact ((List.pairwise_cons.mp hacc).1 m hm').trans (not_lt.mp hv)
      · exact hacc

theorem insFold_pairwise_le (v : List ℚ) :
    ∀ (seg acc : List Nat),
      acc.Pairwise (fun a b => v.getD b 0 ≤ v.getD a 0) →
      (seg.foldl (fun acc i => insRev v i acc) acc).Pairwise (fun a b => v.getD b 0 ≤ v.getD a 0)
  | [], _, hacc => hacc
  | i :: seg', acc, hacc => by
    rw [List.foldl_cons]
    exact insFold_pairwise_le v seg' (insRev v i acc) (insRev_pairwise_le v i acc hacc)

theorem insList_pairwise_le (v : List ℚ) (seg : List Nat) :
    (insList v seg).Pairwise (fun i j => v.getD i 0 ≤ v.getD j 0) := by
  unfold insList
  rw [List.pairwise_reverse]
  exact insFold_pairwise_le v seg [] List.Pairwise.nil

theorem insSeg_getD_left (v : List ℚ) (t : List Nat) (pl pr : Int) (x : Nat)
    (hpllen : pl.toNat ≤ t.length) (hx : x < pl.toNat) :
    (insSeg v t pl pr).getD x 0 = t.getD x 0 := by
  unfold insSeg
  split
  · rfl
  · rw [List.append_assoc, List.getD_append _ _ _ _ (by
      rw [List.length_take]
      omega)]
    rw [List.getD_eq_getElem _ 0 (by rw [List.length_take]; omega)]
    rw [List.getElem_take]
    rw [List.getD_eq_getElem _ 0 (by
      have := List.length_take pl.toNat t
      omega)]

theorem insSeg_getD_right (v : List ℚ) (t : List Nat) (pl pr : Int) (x : Nat)
    (hpl : ¬ (pl < 0 ∨ pr ≤ pl))
    (hx : pl.toNat + (pr - pl + 1).toNat ≤ x) :
    (insSeg v t pl pr).getD x 0 = t.getD x 0 := by
  have hlen : (insSeg v t pl pr).length = t.length := (insSeg_perm v t pl pr).length_eq
  by_cases hxlen : x < t.length
  · unfold insSeg
    rw [if_neg hpl]
    have hmidlen : (insList v ((t.drop pl.toNat).take (pr - pl + 1).toNat)).length
        = ((t.drop pl.toNat).take (pr - pl + 1).toNat).length :=
      (insList_perm v _).length_eq
    have htk : ((t.drop pl.toNat).take (pr - pl + 1).toNat).length
        = min (pr - pl + 1).toNat (t.length - pl.toNat) := by
      rw [List.length_take, List.length_drop]
    have hfront : (t.take pl.toNat
        ++ insList v ((t.drop pl.toNat).take (pr - pl + 1).toNat)).length ≤ x := by
      rw [List.length_append, List.length_take, hmidlen, htk]
      omega
    rw [List.getD_append_right _ _ _ _ hfront]
    have hdx : x - (t.take pl.toNat
        ++ insList v ((t.drop pl.toNat).take (pr - pl + 1).toNat)).length
        < (t.drop (pl.toNat + (pr - pl + 1).toNat)).length := by
      rw [List.length_append, List.length_take, hmidlen, htk, List.length_drop]
      omega
    rw [List.getD_eq_getElem _ 0 hdx, List.getElem_drop, List.getD_eq_getElem _ 0 hxlen]
    congr 1
    rw [List.length_append, List.length_take, hmidlen, htk]
    omega
  · rw [List.getD_eq_default _ 0 (by omega), List.getD_eq_default _ 0 (by omega)]

theorem insSeg_getD_mid (v : List ℚ) (t : List Nat) (pl pr : Int) (x : Nat)
    (hpl : ¬ (pl < 0 ∨ pr ≤ pl))
    (hx1 : pl.toNat ≤ x) (hx2 : x < pl.toNat + (pr - pl + 1).toNat) (hxlen : x < t.length) :
    (insSeg v t pl pr).getD x 0
      = (insList v ((t.drop pl.toNat).take (pr - pl + 1).toNat)).getD (x - pl.toNat) 0 := by
  unfold insSeg
  rw [if_neg hpl]
  rw [List.append_assoc, List.getD_append_right _ _ _ _ (by rw [List.length_take]; omega)]
  have hmidlen : (insList v ((t.drop pl.toNat).take (pr - pl + 1).toNat)).length
      = ((t.drop pl.toNat).take (pr - pl + 1).toNat).length :=
    (insList_perm v _).length_eq
  have htk : ((t.drop pl.toNat).take (pr - pl + 1).toNat).length
      = min (pr - pl + 1).toNat (t.length - pl.toNat) := by
    rw [List.length_take, List.length_drop]
  rw [List.getD_append _ _ _ _ (by
    rw [hmidlen, htk, List.length_take]
    omega)]
  congr 1
  rw [List.length_take]
  omega

theorem mid_getD (t : List Nat) (pl pr : Int) (k : Nat)
    (hk : k < (pr - pl + 1).toNat) (hbound : pl.toNat + k < t.length) :
    ((t.drop pl.toNat).take (pr - pl + 1).toNat).getD k 0 = t.getD (pl.toNat + k) 0 := by
  have hlen : k < ((t.drop pl.toNat).take (pr - pl + 1).toNat).length := by
    rw [List.length_take, List.length_drop]
    omega
  rw [List.getD_eq_getElem _ 0 hlen, List.getElem_take, List.getElem_drop,
      List.getD_eq_getElem _ 0 hbound]

theorem insSeg_localMod (v : List ℚ) (t : List Nat) (pl pr : Int)
    (hpl : 0 ≤ pl) (hpr : pr < (t.length : Int)) :
    localMod v pl pr t (insSeg v t pl pr) := by
  by_cases hguard : pl < 0 ∨ pr ≤ pl
  · have : insSeg v t pl pr = t := by
      unfold insSeg
      rw [if_pos hguard]
    rw [this]
    exact localMod_refl v pl pr t
  · refine ⟨(insSeg_perm v t pl pr).length_eq, ?_, ?_⟩
    · intro x hx
      rcases hx with hx | hx
      · exact insSeg_getD_left v t pl pr x (by omega) (by omega)
      · exact insSeg_getD_right v t pl pr x hguard (by omega)
    · intro x h1 h2 h3 h4
      have hxmid := insSeg_getD_mid v t pl pr x.toNat hguard (by omega) (by omega) (by omega)
      have hmidlen : (insList v ((t.drop pl.toNat).take (pr - pl + 1).toNat)).length
          = ((t.drop pl.toNat).take (pr - pl + 1).toNat).length :=
        (insList_perm v _).length_eq
      have htk : ((t.drop pl.toNat).take (pr - pl + 1).toNat).length
          = min (pr - pl + 1).toNat (t.length - pl.toNat) := by
        rw [List.length_take, List.length_drop]
      have hidx : x.toNat - pl.toNat
          < (insList v ((t.drop pl.toNat).take (pr - pl + 1).toNat)).length := by
        rw [hmidlen, htk]
        omega
      have hmem : (insList v ((t.drop pl.toNat).take (pr - pl + 1).toNat)).getD
            (x.toNat - pl.toNat) 0
          ∈ (t.drop pl.toNat).take (pr - pl + 1).toNat := by
        rw [List.getD_eq_getElem _ 0 hidx]
        exact (insList_perm v _).mem_iff.mp (List.getElem_mem _)
      rcases List.mem_iff_getElem.mp hmem with ⟨k, hklen, hkeq⟩
      have hk : k < (pr - pl + 1).toNat ⊓ (t.length - pl.toNat) := htk ▸ hklen
      have h1 : ((t.drop pl.toNat).take (pr - pl + 1).toNat).getD k 0
          = (insList v ((t.drop pl.toNat).take (pr - pl + 1).toNat)).getD
              (x.toNat - pl.toNat) 0 := by
        rw [List.getD_eq_getElem _ 0 hklen]
        exact hkeq
      have hval : (insSeg v t pl pr).getD x.toNat 0 = t.getD (pl.toNat + k) 0 := by
        rw [hxmid, ← h1]
        exact mid_getD t pl pr k (by omega) (by omega)
      refine ⟨(pl.toNat + k : Nat), by omega, by omega, by omega, by omega, ?_⟩
      unfold vAt
      have htn : ((pl.toNat + k : Nat) : Int).toNat = pl.toNat + k := by omega
      rw [htn, hval]

theorem insSeg_sorted_inside (v : List ℚ) (t : List Nat) (pl pr : Int)
    (hpl : 0 ≤ pl) (hpr : pr < (t.length : Int)) :
    ∀ x y : Int, pl ≤ x → x < y → y ≤ pr →
      vAt v (insSeg v t pl pr) x ≤ vAt v (insSeg v t pl pr) y := by
  intro x y hx hxy hy
  by_cases hguard : pl < 0 ∨ pr ≤ pl
  · omega
  · have hxmid := insSeg_getD_mid v t pl pr x.toNat hguard (by omega) (by omega) (by omega)
    have hymid := insSeg_getD_mid v t pl pr y.toNat hguard (by omega) (by omega) (by omega)
    have hmidlen : (insList v ((t.drop pl.toNat).take (pr - pl + 1).toNat)).length
        = ((t.drop pl.toNat).take (pr - pl + 1).toNat).length :=
      (insList_perm v _).length_eq
    have htk : ((t.drop pl.toNat).take (pr - pl + 1).toNat).length
        = min (pr - pl + 1).toNat (t.length - pl.toNat) := by
      rw [List.length_take, List.length_drop]
    have hxi : x.toNat - pl.toNat
        < (insList v ((t.drop pl.toNat).take (pr - pl + 1).toNat)).length := by
      rw [hmidlen, htk]
      omega
    have hyi : y.toNat - pl.toNat
        < (insList v ((t.drop pl.toNat).take (pr - pl + 1).toNat)).length := by
      rw [hmidlen, htk]
      omega
    have hpw := List.pairwise_iff_getElem.mp (insList_pairwise_le v
      ((t.drop pl.toNat).take (pr - pl + 1).toNat)) (x.toNat - pl.toNat) (y.toNat - pl.toNat)
      hxi hyi (by omega)
    unfold vAt
    rw [hxmid, hymid, List.getD_eq_getElem _ 0 hxi, List.getD_eq_getElem _ 0 hyi]
    exact hpw

/-!  Correctness of the partition step: the scans stop at the first
qualifying position (a sentinel guarantees one exists in range), the
exchange loop maintains the Hoare invariant, and the final pivot swap
splits the segment. -/

theorem scanUp_stop (v : List ℚ) (t : List Nat) (vp : ℚ) :
    ∀ (fuel : Nat) (pi q : Int),
      pi < q → vp ≤ vAt v t q → (q - pi).toNat ≤ fuel →
      pi < scanUp v t vp pi fuel ∧ scanUp v t vp pi fuel ≤ q ∧
      vp ≤ vAt v t (scanUp v t vp pi fuel) ∧
      ∀ x : Int, pi < x → x < scanUp v t vp pi fuel → vAt v t x < vp
  | 0, pi, q => by
    intro h1 _ h3
    omega
  | fuel + 1, pi, q => by
    intro h1 h2 h3
    rw [scanUp]
    split_ifs with h
    · have hq : pi + 1 < q := by
        rcases lt_or_eq_of_le (by omega : pi + 1 ≤ q) with h' | h'
        · exact h'
        · rw [h'] at h
          exact absurd h2 (not_le.mpr h)
      obtain ⟨ih1, ih2, ih3, ih4⟩ := scanUp_stop v t vp fuel (pi + 1) q hq h2 (by omega)
      refine ⟨by omega, ih2, ih3, ?_⟩
      intro x hx1 hx2
      rcases lt_or_eq_of_le (by omega : pi + 1 ≤ x) with h' | h'
      · exact ih4 x h' hx2
      · rw [← h']
        exact h
    · exact ⟨by omega, by omega, not_lt.mp h, by omega⟩

theorem scanDown_stop (v : List ℚ) (t : List Nat) (vp : ℚ) :
    ∀ (fuel : Nat) (pj q : Int),
      q < pj → vAt v t q ≤ vp → (pj - q).toNat ≤ fuel →
      scanDown v t vp pj fuel < pj ∧ q ≤ scanDown v t vp pj fuel ∧
      vAt v t (scanDown v t vp pj fuel) ≤ vp ∧
      ∀ x : Int, scanDown v t vp pj fuel < x → x < pj → vp < vAt v t x
  | 0, pj, q => by
    intro h1 _ h3
    omega
  | fuel + 1, pj, q => by
    intro h1 h2 h3
    rw [scanDown]
    split_ifs with h
    · have hq : q < pj - 1 := by
        rcases lt_or_eq_of_le (by omega : q ≤ pj - 1) with h' | h'
        · exact h'
        · rw [← h'] at h
          exact absurd h2 (not_le.mpr h)
      obtain ⟨ih1, ih2, ih3, ih4⟩ := scanDown_stop v t vp fuel (pj - 1) q hq h2 (by omega)
      refine ⟨by omega, ih2, ih3, ?_⟩
      intro x hx1 hx2
      rcases lt_or_eq_of_le (by omega : x ≤ pj - 1) with h' | h'
      · exact ih4 x hx1 h'
      · rw [h']
        exact h
    · exact ⟨by omega, by omega, not_lt.mp h, by omega⟩

theorem partLoop_post (v : List ℚ) (vp : ℚ) (pl pr : Int) :
    ∀ (fuel : Nat) (t : List Nat) (pi pj : Int),
      0 ≤ pl → pr < (t.length : Int) → pl + 1 < pr →
      pl ≤ pi → pi < pj → pj ≤ pr - 1 →
      (∀ x : Int, pl ≤ x → x ≤ pi → vAt v t x ≤ vp) →
      (∀ x : Int, pj ≤ x → x ≤ pr - 1 → vp ≤ vAt v t x) →
      vAt v t (pr - 1) = vp →
      (pj - pi).toNat + 1 ≤ fuel →
      localMod v pl (pr - 1) t (partLoop v vp t pi pj fuel).1 ∧
      (partLoop v vp t pi pj fuel).1.length = t.length ∧
      pl + 1 ≤ (partLoop v vp t pi pj fuel).2 ∧ (partLoop v vp t pi pj fuel).2 ≤ pr - 1 ∧
      (∀ x : Int, pl ≤ x → x < (partLoop v vp t pi pj fuel).2 →
        vAt v (partLoop v vp t pi pj fuel).1 x ≤ vp) ∧
      (∀ x : Int, (partLoop v vp t pi pj fuel).2 ≤ x → x ≤ pr - 1 →
        vp ≤ vAt v (partLoop v vp t pi pj fuel).1 x) ∧
      vAt v (partLoop v vp t pi pj fuel).1 (pr - 1) = vp
  | 0, t, pi, pj => by
    intro _ _ _ _ hord _ _ _ _ hfuel
    omega
  | fuel + 1, t, pi, pj => by
    intro hpl hprlen hgap hpi hord hpj hA hB hD hfuel
    rw [partLoop]
    obtain ⟨hu1, hu2, hu3, hu4⟩ := scanUp_stop v t vp (t.length + 2) pi (pr - 1)
      (by omega) (le_of_eq hD.symm) (by omega)
    obtain ⟨hd1, hd2, hd3, hd4⟩ := scanDown_stop v t vp (t.length + 2) pj pl
      (by omega) (hA pl (by omega) (by omega)) (by omega)
    split_ifs with hbr
    · refine ⟨localMod_refl v pl (pr - 1) t, rfl, by omega, hu2, ?_, ?_, hD⟩
      · intro x hx1 hx2
        by_cases hxi : x ≤ pi
        · exact hA x hx1 hxi
        · exact le_of_lt (hu4 x (by omega) hx2)
      · intro x hx1 hx2
        rcases lt_or_eq_of_le hx1 with hx1 | hx1
        · by_cases hxq : pj ≤ x
          · exact hB x hxq hx2
          · exact le_of_lt (hd4 x (by omega) (by omega))
        · rw [← hx1]
          exact hu3
    · set PI := scanUp v t vp pi (t.length + 2) with hPI
      set PJ := scanDown v t vp pj (t.length + 2) with hPJ
      have hbi : 0 ≤ PI ∧ PI < (t.length : Int) := ⟨by omega, by omega⟩
      have hbj : 0 ≤ PJ ∧ PJ < (t.length : Int) := ⟨by omega, by omega⟩
      have hlen' : (lswap t PI PJ).length = t.length := lswap_length t PI PJ
      have hA' : ∀ x : Int, pl ≤ x → x ≤ PI → vAt v (lswap t PI PJ) x ≤ vp := by
        intro x hx1 hx2
        rw [vAt_lswap v t PI PJ hbi hbj x (by omega)]
        by_cases hxi : x = PI
        · rw [if_pos hxi]
          exact hd3
        · rw [if_neg hxi, if_neg (by omega)]
          by_cases hxpi : x ≤ pi
          · exact hA x hx1 hxpi
          · exact le_of_lt (hu4 x (by omega) (by omega))
      have hB' : ∀ x : Int, PJ ≤ x → x ≤ pr - 1 → vp ≤ vAt v (lswap t PI PJ) x := by
        intro x hx1 hx2
        rw [vAt_lswap v t PI PJ hbi hbj x (by omega)]
        by_cases hxj : x = PJ
        · rw [if_neg (by omega), if_pos hxj]
          exact hu3
        · rw [if_neg (by omega), if_neg hxj]
          by_cases hxq : pj ≤ x
          · exact hB x hxq hx2
          · exact le_of_lt (hd4 x (by omega) (by omega))
      have hD' : vAt v (lswap t PI PJ) (pr - 1) = vp := by
        rw [vAt_lswap v t PI PJ hbi hbj (pr - 1) (by omega)]
        rw [if_neg (by omega), if_neg (by omega)]
        exact hD
      obtain ⟨ih0, ih1, ih2, ih3, ih4, ih5, ih6⟩ := partLoop_post v vp pl pr fuel
        (lswap t PI PJ) PI PJ hpl (by omega) hgap (by omega) (by omega) (by omega)
        hA' hB' hD' (by omega)
      refine ⟨?_, by omega, ih2, ih3, ih4, ih5, ih6⟩
      exact localMod_trans v pl (pr - 1) t (lswap t PI PJ) _
        (localMod_lswap v pl (pr - 1) t PI PJ hpl (by omega)
          (by omega) (by omega) (by omega) (by omega)) ih0

theorem cswap_post (v : List ℚ) (t : List Nat) (i j lo hi : Int) (t' : List Nat)
    (ht' : t' = if vAt v t i < vAt v t j then lswap t i j else t)
    (hij : i ≠ j)
    (hloi : lo ≤ i) (hhii : i ≤ hi) (hloj : lo ≤ j) (hhij : j ≤ hi)
    (hlo : 0 ≤ lo) (hhi : hi < (t.length : Int)) :
    t'.length = t.length ∧
    vAt v t' j ≤ vAt v t' i ∧
    (∀ x : Int, 0 ≤ x → x ≠ i → x ≠ j → vAt v t' x = vAt v t x) ∧
    ((vAt v t' i = vAt v t i ∧ vAt v t' j = vAt v t j) ∨
      (vAt v t' i = vAt v t j ∧ vAt v t' j = vAt v t i)) ∧
    localMod v lo hi t t' := by
  have hbi : 0 ≤ i ∧ i < (t.length : Int) := ⟨by omega, by omega⟩
  have hbj : 0 ≤ j ∧ j < (t.length : Int) := ⟨by omega, by omega⟩
  subst ht'
  split_ifs with h
  · have hvi : vAt v (lswap t i j) i = vAt v t j := by
      rw [vAt_lswap v t i j hbi hbj i (by omega), if_pos rfl]
    have hvj : vAt v (lswap t i j) j = vAt v t i := by
      rw [vAt_lswap v t i j hbi hbj j (by omega), if_neg (by omega), if_pos rfl]
    refine ⟨lswap_length t i j, ?_, ?_, Or.inr ⟨hvi, hvj⟩, ?_⟩
    · rw [hvi, hvj]
      exact le_of_lt h
    · intro x hx hxi hxj
      rw [vAt_lswap v t i j hbi hbj x hx, if_neg hxi, if_neg hxj]
    · exact localMod_lswap v lo hi t i j hlo hhi hloi hhii hloj hhij
  · exact ⟨rfl, not_lt.mp h, fun x _ _ _ => rfl, Or.inl ⟨rfl, rfl⟩,
      localMod_refl v lo hi t⟩

theorem partitionStep_post (v : List ℚ) (t : List Nat) (pl pr : Int)
    (hpl : 0 ≤ pl) (hprlen : pr < (t.length : Int)) (hgap : pr - pl > 15) :
    (partitionStep v t pl pr).1.length = t.length ∧
    localMod v pl pr t (partitionStep v t pl pr).1 ∧
    pl < (partitionStep v t pl pr).2 ∧ (partitionStep v t pl pr).2 < pr ∧
    (∀ x : Int, pl ≤ x → x ≤ (partitionStep v t pl pr).2 →
      vAt v (partitionStep v t pl pr).1 x
        ≤ vAt v (partitionStep v t pl pr).1 (partitionStep v t pl pr).2) ∧
    (∀ x : Int, (partitionStep v t pl pr).2 ≤ x → x ≤ pr →
      vAt v (partitionStep v t pl pr).1 (partitionStep v t pl pr).2
        ≤ vAt v (partitionStep v t pl pr).1 x) := by
  set pm := pl + ((pr - pl) / 2) with hpmdef
  have hpmb : pl < pm ∧ pm < pr := by omega
  set t1 := if vAt v t pm < vAt v t pl then lswap t pm pl else t with ht1
  obtain ⟨hlen1, hkey1, hout1, hpair1, hlm1⟩ :=
    cswap_post v t pm pl pl pr t1 ht1 (by omega) (by omega) (by omega)
      (le_refl pl) (by omega) hpl hprlen
  set t2 := if vAt v t1 pr < vAt v t1 pm then lswap t1 pr pm else t1 with ht2
  obtain ⟨hlen2, hkey2, hout2, hpair2, hlm2⟩ :=
    cswap_post v t1 pr pm pl pr t2 ht2 (by omega) (by omega) (le_refl pr)
      (by omega) (by omega) hpl (by omega)
  set t3 := if vAt v t2 pm < vAt v t2 pl then lswap t2 pm pl else t2 with ht3
  obtain ⟨hlen3, hkey3, hout3, hpair3, hlm3⟩ :=
    cswap_post v t2 pm pl pl pr t3 ht3 (by omega) (by omega) (by omega)
      (le_refl pl) (by omega) hpl (by omega)
  have hplpr2 : vAt v t2 pl ≤ vAt v t2 pr := by
    have hpl1 : vAt v t2 pl = vAt v t1 pl := hout2 pl hpl (by omega) (by omega)
    rcases hpair2 with ⟨e1, e2⟩ | ⟨e1, e2⟩
    · calc vAt v t2 pl = vAt v t1 pl := hpl1
        _ ≤ vAt v t1 pm := hkey1
        _ = vAt v t2 pm := e2.symm
        _ ≤ vAt v t2 pr := hkey2
    · calc vAt v t2 pl = vAt v t1 pl := hpl1
        _ ≤ vAt v t1 pm := hkey1
        _ = vAt v t2 pr := e1.symm
  have hkey3b : vAt v t3 pm ≤ vAt v t3 pr := by
    have hpr3 : vAt v t3 pr = vAt v t2 pr := hout3 pr (by omega) (by omega) (by omega)
    rcases hpair3 with ⟨e1, e2⟩ | ⟨e1, e2⟩
    · rw [e1, hpr3]
      exact hkey2
    · rw [e1, hpr3]
      exact hplpr2
  set vp := vAt v t3 pm with hvp
  set t4 := lswap t3 pm (pr - 1) with ht4
  have hlen3t : t3.length = t.length := by omega
  have hbm : 0 ≤ pm ∧ pm < (t3.length : Int) := ⟨by omega, by omega⟩
  have hbr1 : 0 ≤ pr - 1 ∧ pr - 1 < (t3.length : Int) := ⟨by omega, by omega⟩
  have hlen4 : t4.length = t.length := by
    rw [ht4, lswap_length]
    exact hlen3t
  have ht4pl : vAt v t4 pl ≤ vp := by
    rw [ht4, vAt_lswap v t3 pm (pr - 1) hbm hbr1 pl hpl, if_neg (by omega),
      if_neg (by omega)]
    exact hkey3
  have ht4pr1 : vAt v t4 (pr - 1) = vp := by
    rw [ht4, vAt_lswap v t3 pm (pr - 1) hbm hbr1 (pr - 1) (by omega),
      if_neg (by omega), if_pos rfl]
  have ht4pr : vp ≤ vAt v t4 pr := by
    rw [ht4, vAt_lswap v t3 pm (pr - 1) hbm hbr1 pr (by omega), if_neg (by omega),
      if_neg (by omega)]
    exact hkey3b
  have hlm4 : localMod v pl pr t3 t4 := by
    rw [ht4]
    exact localMod_lswap v pl pr t3 pm (pr - 1) hpl (by omega) (by omega)
      (by omega) (by omega) (by omega)
  set pp := partLoop v vp t4 pl (pr - 1) (t4.length + 2) with hpp
  obtain ⟨hlm, hlenp, hpi1, hpi2, hL, hR, hDD⟩ :=
    partLoop_post v vp pl pr (t4.length + 2) t4 pl (pr - 1) hpl (by omega)
      (by omega) (le_refl pl) (by omega) (le_refl (pr - 1))
      (by
        intro x hx1 hx2
        have hx : x = pl := by omega
        rw [hx]
        exact ht4pl)
      (by
        intro x hx1 hx2
        have hx : x = pr - 1 := by omega
        rw [hx, ht4pr1])
      ht4pr1 (by omega)
  rw [← hpp] at hlm hlenp hpi1 hpi2 hL hR hDD
  have hres : partitionStep v t pl pr = (lswap pp.1 pp.2 (pr - 1), pp.2) := by
    rw [partitionStep]
  rw [hres]
  dsimp only
  have hlenpp : pp.1.length = t.length := by omega
  have hbp2 : 0 ≤ pp.2 ∧ pp.2 < (pp.1.length : Int) := ⟨by omega, by omega⟩
  have hbpr1 : 0 ≤ pr - 1 ∧ pr - 1 < (pp.1.length : Int) := ⟨by omega, by omega⟩
  have hfinpiv : vAt v (lswap pp.1 pp.2 (pr - 1)) pp.2 = vp := by
    rw [vAt_lswap v pp.1 pp.2 (pr - 1) hbp2 hbpr1 pp.2 (by omega), if_pos rfl]
    exact hDD
  have hprout : vAt v pp.1 pr = vAt v t4 pr := by
    refine vAt_agree_of_localMod v pl (pr - 1) t4 pp.1 hlm pr ?_ (by omega)
    unfold inSeg
    omega
  refine ⟨by rw [lswap_length]; omega, ?_, by omega, by omega, ?_, ?_⟩
  · refine localMod_trans v pl pr t t2 _ (localMod_trans v pl pr t t1 _ hlm1 hlm2) ?_
    refine localMod_trans v pl pr t2 t3 _ hlm3 ?_
    refine localMod_trans v pl pr t3 t4 _ hlm4 ?_
    refine localMod_trans v pl pr t4 pp.1 _
      (localMod_mono v pl (pr - 1) pl pr t4 pp.1 (le_refl pl) (by omega) hlm) ?_
    exact localMod_lswap v pl pr pp.1 pp.2 (pr - 1) hpl (by omega) (by omega)
      (by omega) (by omega) (by omega)
  · intro x hx1 hx2
    rw [hfinpiv]
    rcases lt_or_eq_of_le hx2 with hx2 | hx2
    · rw [vAt_lswap v pp.1 pp.2 (pr - 1) hbp2 hbpr1 x (by omega),
        if_neg (by omega), if_neg (by omega)]
      exact hL x hx1 hx2
    · rw [hx2, hfinpiv]
  · intro x hx1 hx2
    rw [hfinpiv]
    rcases lt_or_eq_of_le hx1 with hx1 | hx1
    · by_cases hxpr1 : x = pr - 1
      · rw [hxpr1, vAt_lswap v pp.1 pp.2 (pr - 1) hbp2 hbpr1 (pr - 1) (by omega),
          if_neg (by omega), if_pos rfl]
        exact hR pp.2 (le_refl pp.2) hpi2
      · by_cases hxpr : x = pr
        · rw [hxpr, vAt_lswap v pp.1 pp.2 (pr - 1) hbp2 hbpr1 pr (by omega),
            if_neg (by omega), if_neg (by omega), hprout]
          exact ht4pr
        · rw [vAt_lswap v pp.1 pp.2 (pr - 1) hbp2 hbpr1 x (by omega),
            if_neg (by omega), if_neg hxpr1]
          exact hR x (by omega) (by omega)
    · rw [← hx1, hfinpiv]

/-!  Correctness of the heapsort fallback: `siftLoop` restores the heap
property at the start node given heaps everywhere below it, provided the
children of the moving node never exceed its parent. -/

theorem siftLoop_post (v : List ℚ) (base nn l : Int) (hl : 1 ≤ l) (hbase : 0 ≤ base) :
    ∀ (fuel : Nat) (t : List Nat) (i : Int),
      l ≤ i → 1 ≤ i →
      base + nn - 1 < (t.length : Int) →
      (∀ k : Int, l ≤ k → k ≠ i → heapAt v base t nn k) →
      (∀ p : Int, l ≤ p → (2 * p = i ∨ 2 * p + 1 = i) →
        (2 * i ≤ nn → aKey v base t (2 * i) ≤ aKey v base t p) ∧
        (2 * i + 1 ≤ nn → aKey v base t (2 * i + 1) ≤ aKey v base t p)) →
      (nn + 1 - i).toNat ≤ fuel →
      (∀ k : Int, l ≤ k → heapAt v base (siftLoop v base nn t i (2 * i) fuel).1 nn k) ∧
      (siftLoop v base nn t i (2 * i) fuel).1.length = t.length ∧
      localMod v base (base + nn - 1) t (siftLoop v base nn t i (2 * i) fuel).1
  | 0, t, i => by
    intro hli hi1 hlen hheap hextra hfuel
    have hinn : nn < i := by omega
    refine ⟨?_, rfl, localMod_refl v base (base + nn - 1) t⟩
    intro k hk
    by_cases hki : k = i
    · exact ⟨fun hc => by omega, fun hc => by omega⟩
    · exact hheap k hk hki
  | fuel + 1, t, i => by
    intro hli hi1 hlen hheap hextra hfuel
    rw [siftLoop]
    dsimp only
    by_cases hcj : 2 * i ≤ nn
    · rw [if_pos hcj]
      set J := (if 2 * i < nn ∧ v.getD (aGet t base (2 * i)) 0 < v.getD (aGet t base (2 * i + 1)) 0
        then 2 * i + 1 else 2 * i) with hJ
      have hJrange : 2 * i ≤ J ∧ J ≤ nn := by
        rw [hJ]
        split_ifs with hc
        · omega
        · omega
      have hJmax : ∀ c : Int, (c = 2 * i ∨ c = 2 * i + 1) → c ≤ nn →
          aKey v base t c ≤ aKey v base t J := by
        intro c hc hcnn
        rw [hJ]
        split_ifs with hcond
        · rcases hc with hc | hc
          · rw [hc]
            exact le_of_lt hcond.2
          · rw [hc]
        · rcases hc with hc | hc
          · rw [hc]
          · rw [hc]
            subst hc
            exact le_of_not_lt (fun hcl => hcond ⟨by omega, hcl⟩)
      split_ifs with hswap
      · have hswap' : aKey v base t i < aKey v base t J := hswap
        have hJi : i < J := by
          have : 1 ≤ i := hi1
          omega
        have hbi : 0 ≤ base + i - 1 ∧ base + i - 1 < (t.length : Int) := ⟨by omega, by omega⟩
        have hbJ : 0 ≤ base + J - 1 ∧ base + J - 1 < (t.length : Int) := ⟨by omega, by omega⟩
        set t' := lswap t (base + i - 1) (base + J - 1) with ht'
        have hkey : ∀ k : Int, 1 ≤ k →
            aKey v base t' k = if k = i then aKey v base t J
              else if k = J then aKey v base t i else aKey v base t k := by
          intro k hk
          rw [ht']
          unfold aKey
          rw [vAt_lswap v t (base + i - 1) (base + J - 1) hbi hbJ (base + k - 1) (by omega)]
          by_cases hki : k = i
          · rw [if_pos (by omega : base + k - 1 = base + i - 1), if_pos hki]
          · rw [if_neg (by omega : ¬ base + k - 1 = base + i - 1), if_neg hki]
            by_cases hkJ : k = J
            · rw [if_pos (by omega : base + k - 1 = base + J - 1), if_pos hkJ]
            · rw [if_neg (by omega : ¬ base + k - 1 = base + J - 1), if_neg hkJ]
        have hheap' : ∀ k : Int, l ≤ k → k ≠ J → heapAt v base t' nn k := by
          intro k hk hkJ
          by_cases hki : k = i
          · subst hki
            constructor
            · intro hc
              rw [hkey (2 * k) (by omega), hkey k (by omega), if_pos rfl]
              by_cases h2k : 2 * k = J
              · rw [if_neg (by omega), if_pos h2k]
                exact le_of_lt hswap'
              · rw [if_neg (by omega), if_neg h2k]
                exact hJmax (2 * k) (Or.inl rfl) hc
            · intro hc
              rw [hkey (2 * k + 1) (by omega), hkey k (by omega), if_pos rfl]
              by_cases h2k : 2 * k + 1 = J
              · rw [if_neg (by omega), if_pos h2k]
                exact le_of_lt hswap'
              · rw [if_neg (by omega), if_neg h2k]
                exact hJmax (2 * k + 1) (Or.inr rfl) hc
          · have hknotpar : ¬ (2 * k = i ∨ 2 * k + 1 = i) ∨ (2 * k = i ∨ 2 * k + 1 = i) :=
              (em _).symm
            have hold := hheap k hk hki
            by_cases hpar : 2 * k = i ∨ 2 * k + 1 = i
            · have hi2 : 2 ≤ i := by omega
              have hkk : aKey v base t' k = aKey v base t k := by
                rw [hkey k (by omega), if_neg hki, if_neg (by omega)]
              have hJle : aKey v base t J ≤ aKey v base t k := by
                obtain ⟨he1, he2⟩ := hextra k hk hpar
                rw [hJ]
                split_ifs with hcond
                · exact he2 (by omega)
                · exact he1 (by omega)
              constructor
              · intro hc
                rw [hkk, hkey (2 * k) (by omega)]
                by_cases h2ki : 2 * k = i
                · rw [if_pos h2ki]
                  exact hJle
                · rw [if_neg h2ki, if_neg (by omega)]
                  exact hold.1 hc
              · intro hc
                rw [hkk, hkey (2 * k + 1) (by omega)]
                by_cases h2ki : 2 * k + 1 = i
                · rw [if_pos h2ki]
                  exact hJle
                · rw [if_neg h2ki, if_neg (by omega)]
                  exact hold.2 hc
            · have hkk : aKey v base t' k = aKey v base t k := by
                rw [hkey k (by omega), if_neg hki, if_neg hkJ]
              constructor
              · intro hc
                rw [hkk, hkey (2 * k) (by omega), if_neg (by omega), if_neg (by omega)]
                exact hold.1 hc
              · intro hc
                rw [hkk, hkey (2 * k + 1) (by omega), if_neg (by omega), if_neg (by omega)]
                exact hold.2 hc
        have hextra' : ∀ p : Int, l ≤ p → (2 * p = J ∨ 2 * p + 1 = J) →
            (2 * J ≤ nn → aKey v base t' (2 * J) ≤ aKey v base t' p) ∧
            (2 * J + 1 ≤ nn → aKey v base t' (2 * J + 1) ≤ aKey v base t' p) := by
          intro p hp hpar
          have hpi : p = i := by omega
          subst hpi
          have hppi : aKey v base t' p = aKey v base t J := by
            rw [hkey p (by omega), if_pos rfl]
          have holdJ := hheap J (by omega) (by omega)
          constructor
          · intro hc
            rw [hppi, hkey (2 * J) (by omega), if_neg (by omega), if_neg (by omega)]
            exact holdJ.1 hc
          · intro hc
            rw [hppi, hkey (2 * J + 1) (by omega), if_neg (by omega), if_neg (by omega)]
            exact holdJ.2 hc
        have hlen' : t'.length = t.length := by
          rw [ht']
          exact lswap_length t (base + i - 1) (base + J - 1)
        obtain ⟨ih1, ih2, ih3⟩ := siftLoop_post v base nn l hl hbase fuel t' J
          (by omega) (by omega) (by omega) hheap' hextra' (by omega)
        refine ⟨ih1, by omega, ?_⟩
        refine localMod_trans v base (base + nn - 1) t t' _ ?_ ih3
        rw [ht']
        exact localMod_lswap v base (base + nn - 1) t (base + i - 1) (base + J - 1)
          hbase (by omega) (by omega) (by omega) (by omega) (by omega)
      · refine ⟨?_, rfl, localMod_refl v base (base + nn - 1) t⟩
        intro k hk
        by_cases hki : k = i
        · subst hki
          have hnot : aKey v base t J ≤ aKey v base t k := le_of_not_lt hswap
          exact ⟨fun hc => le_trans (hJmax (2 * k) (Or.inl rfl) hc) hnot,
            fun hc => le_trans (hJmax (2 * k + 1) (Or.inr rfl) hc) hnot⟩
        · exact hheap k hk hki
    · rw [if_neg hcj]
      refine ⟨?_, rfl, localMod_refl v base (base + nn - 1) t⟩
      intro k hk
      by_cases hki : k = i
      · exact ⟨fun hc => by omega, fun hc => by omega⟩
      · exact hheap k hk hki

theorem heap_root_max (v : List ℚ) (base : Int) (t : List Nat) (n : Int)
    (hh : ∀ k : Int, 1 ≤ k → heapAt v base t n k) :
    ∀ (m : Nat) (k : Int), 1 ≤ k → k ≤ n → k.toNat ≤ m →
      aKey v base t k ≤ aKey v base t 1
  | 0, k => by
    intro h1 _ h3
    omega
  | m + 1, k => by
    intro h1 h2 h3
    rcases lt_or_eq_of_le h1 with hk | hk
    · have hchild : aKey v base t k ≤ aKey v base t (k / 2) := by
        have hpk := hh (k / 2) (by omega)
        rcases (by omega : 2 * (k / 2) = k ∨ 2 * (k / 2) + 1 = k) with he | he
        · have h' := hpk.1 (by omega)
          rw [he] at h'
          exact h'
        · have h' := hpk.2 (by omega)
          rw [he] at h'
          exact h'
      exact le_trans hchild
        (heap_root_max v base t n hh m (k / 2) (by omega) (by omega) (by omega))
    · rw [← hk]

theorem heapLoop1_post (v : List ℚ) (base nn : Int) (hbase : 0 ≤ base) :
    ∀ (fuel : Nat) (t : List Nat) (l : Int),
      0 ≤ l →
      base + nn - 1 < (t.length : Int) →
      (∀ k : Int, l < k → heapAt v base t nn k) →
      l.toNat + 1 ≤ fuel →
      (∀ k : Int, 1 ≤ k → heapAt v base (heapLoop1 v base nn t l fuel) nn k) ∧
      (heapLoop1 v base nn t l fuel).length = t.length ∧
      localMod v base (base + nn - 1) t (heapLoop1 v base nn t l fuel)
  | 0, t, l => by
    intro _ _ _ hfuel
    omega
  | fuel + 1, t, l => by
    intro hl0 hlen hheap hfuel
    rw [heapLoop1]
    split_ifs with hl1
    · obtain ⟨hs1, hs2, hs3⟩ := siftLoop_post v base nn l hl1 hbase (t.length + 2) t l
        (le_refl l) hl1 hlen (fun k hk hkl => hheap k (by omega))
        (fun p hp hpar => absurd hpar (by omega)) (by omega)
      obtain ⟨ih1, ih2, ih3⟩ := heapLoop1_post v base nn hbase fuel
        (siftLoop v base nn t l (2 * l) (t.length + 2)).1 (l - 1) (by omega) (by omega)
        (fun k hk => hs1 k (by omega)) (by omega)
      refine ⟨ih1, by omega, ?_⟩
      exact localMod_trans v base (base + nn - 1) t _ _ hs3 ih3
    · exact ⟨fun k hk => hheap k (by omega), rfl, localMod_refl v base (base + nn - 1) t⟩

theorem heapLoop2_post (v : List ℚ) (base NN : Int) (hbase : 0 ≤ base) :
    ∀ (fuel : Nat) (t : List Nat) (n : Int),
      1 ≤ n → n ≤ NN →
      base + NN - 1 < (t.length : Int) →
      (∀ k : Int, 1 ≤ k → heapAt v base t n k) →
      (∀ x y : Int, base + n - 1 < x → x < y → y ≤ base + NN - 1 →
        vAt v t x ≤ vAt v t y) →
      (∀ x y : Int, base ≤ x → x ≤ base + n - 1 → base + n - 1 < y → y ≤ base + NN - 1 →
        vAt v t x ≤ vAt v t y) →
      n.toNat ≤ fuel →
      (∀ x y : Int, base ≤ x → x < y → y ≤ base + NN - 1 →
        vAt v (heapLoop2 v base t n fuel) x ≤ vAt v (heapLoop2 v base t n fuel) y) ∧
      (heapLoop2 v base t n fuel).length = t.length ∧
      localMod v base (base + n - 1) t (heapLoop2 v base t n fuel)
  | 0, t, n => by
    intro h1 _ _ _ _ _ hfuel
    omega
  | fuel + 1, t, n => by
    intro hn1 hnN hlen hheap hsuf hcross hfuel
    by_cases hn2 : 1 < n
    · have hstep : heapLoop2 v base t n (fuel + 1)
          = heapLoop2 v base (siftLoop v base (n - 1)
              (lswap t (base + n - 1) (base + 1 - 1)) 1 2
              ((lswap t (base + n - 1) (base + 1 - 1)).length + 2)).1 (n - 1) fuel := by
        rw [heapLoop2, if_pos hn2]
      rw [hstep]
      set t1 := lswap t (base + n - 1) (base + 1 - 1) with ht1
      have hb1 : 0 ≤ base + n - 1 ∧ base + n - 1 < (t.length : Int) := ⟨by omega, by omega⟩
      have hb0 : 0 ≤ base + 1 - 1 ∧ base + 1 - 1 < (t.length : Int) := ⟨by omega, by omega⟩
      have hlen1 : t1.length = t.length := by
        rw [ht1]
        exact lswap_length t (base + n - 1) (base + 1 - 1)
      have hv1 : ∀ x : Int, 0 ≤ x → vAt v t1 x
          = if x = base + n - 1 then vAt v t (base + 1 - 1)
            else if x = base + 1 - 1 then vAt v t (base + n - 1) else vAt v t x := by
        intro x hx
        rw [ht1]
        exact vAt_lswap v t (base + n - 1) (base + 1 - 1) hb1 hb0 x hx
      have hroot : ∀ k : Int, 1 ≤ k → k ≤ n → aKey v base t k ≤ aKey v base t 1 :=
        fun k h1 h2 => heap_root_max v base t n hheap n.toNat k h1 h2 (by omega)
      have hrootP : ∀ p : Int, base ≤ p → p ≤ base + n - 1 → vAt v t p ≤ vAt v t base := by
        intro p h1 h2
        have hr := hroot (p - base + 1) (by omega) (by omega)
        unfold aKey at hr
        have he : base + (p - base + 1) - 1 = p := by omega
        have he1 : base + 1 - 1 = base := by omega
        rw [he, he1] at hr
        exact hr
      have hheap1 : ∀ k : Int, 1 ≤ k → k ≠ 1 → heapAt v base t1 (n - 1) k := by
        intro k hk hk1
        have hkey : ∀ m : Int, 2 ≤ m → m ≤ n - 1 → aKey v base t1 m = aKey v base t m := by
          intro m hm1 hm2
          unfold aKey
          rw [hv1 (base + m - 1) (by omega), if_neg (by omega), if_neg (by omega)]
        constructor
        · intro hc
          rw [hkey (2 * k) (by omega) (by omega), hkey k (by omega) (by omega)]
          exact (hheap k (by omega)).1 (by omega)
        · intro hc
          rw [hkey (2 * k + 1) (by omega) (by omega), hkey k (by omega) (by omega)]
          exact (hheap k (by omega)).2 (by omega)
      obtain ⟨hs1, hs2, hs3⟩ := siftLoop_post v base (n - 1) 1 (le_refl 1) hbase
        (t1.length + 2) t1 1 (le_refl 1) (le_refl 1) (by omega) hheap1
        (fun p hp hpar => absurd hpar (by omega)) (by omega)
      have h21 : (2 : Int) * 1 = 2 := by norm_num
      rw [h21] at hs1 hs2 hs3
      set T2 := (siftLoop v base (n - 1) t1 1 2 (t1.length + 2)).1 with hT2
      have hs2' : T2.length = t.length := by omega
      have hagree : ∀ x : Int, base + n - 2 < x → 0 ≤ x → vAt v T2 x = vAt v t1 x := by
        intro x hx hx0
        refine vAt_agree_of_localMod v base (base + (n - 1) - 1) t1 T2 hs3 x ?_ hx0
        unfold inSeg
        omega
      have hsuf' : ∀ x y : Int, base + (n - 1) - 1 < x → x < y → y ≤ base + NN - 1 →
          vAt v T2 x ≤ vAt v T2 y := by
        intro x y hx hxy hy
        rw [hagree x (by omega) (by omega), hagree y (by omega) (by omega)]
        by_cases hxn : x = base + n - 1
        · rw [hv1 x (by omega), if_pos hxn,
            hv1 y (by omega), if_neg (by omega), if_neg (by omega)]
          have he : base + 1 - 1 = base := by omega
          rw [he]
          exact hcross base y (le_refl base) (by omega) (by omega) hy
        · rw [hv1 x (by omega), if_neg hxn, if_neg (by omega),
            hv1 y (by omega), if_neg (by omega), if_neg (by omega)]
          exact hsuf x y (by omega) hxy hy
      have hcross' : ∀ x y : Int, base ≤ x → x ≤ base + (n - 1) - 1 →
          base + (n - 1) - 1 < y → y ≤ base + NN - 1 → vAt v T2 x ≤ vAt v T2 y := by
        intro x y hx1 hx2 hy1 hy2
        rw [hagree y (by omega) (by omega)]
        obtain ⟨z, hz1, hz2, hz3, hz4, hz5⟩ := hs3.2.2 x hx1 (by omega) (by omega) (by omega)
        rw [hz5]
        by_cases hzb : z = base + 1 - 1
        · rw [hv1 z (by omega), if_neg (by omega), if_pos hzb]
          by_cases hyn : y = base + n - 1
          · rw [hv1 y (by omega), if_pos hyn]
            have he : base + 1 - 1 = base := by omega
            rw [he]
            exact hrootP (base + n - 1) (by omega) (by omega)
          · rw [hv1 y (by omega), if_neg hyn, if_neg (by omega)]
            exact hcross (base + n - 1) y (by omega) (le_refl _) (by omega) hy2
        · rw [hv1 z (by omega), if_neg (by omega), if_neg hzb]
          by_cases hyn : y = base + n - 1
          · rw [hv1 y (by omega), if_pos hyn]
            have he : base + 1 - 1 = base := by omega
            rw [he]
            exact hrootP z (by omega) (by omega)
          · rw [hv1 y (by omega), if_neg hyn, if_neg (by omega)]
            exact hcross z y (by omega) (by omega) (by omega) hy2
      obtain ⟨ih1, ih2, ih3⟩ := heapLoop2_post v base NN hbase fuel T2 (n - 1)
        (by omega) (by omega) (by omega) hs1 hsuf' hcross' (by omega)
      refine ⟨ih1, by omega, ?_⟩
      refine localMod_trans v base (base + n - 1) t t1 _ ?_ ?_
      · rw [ht1]
        exact localMod_lswap v base (base + n - 1) t (base + n - 1) (base + 1 - 1)
          hbase (by omega) (by omega) (le_refl _) (by omega) (by omega)
      · refine localMod_trans v base (base + n - 1) t1 T2 _ ?_ ?_
        · exact localMod_mono v base (base + (n - 1) - 1) base (base + n - 1) t1 T2
            (le_refl base) (by omega) hs3
        · exact localMod_mono v base (base + (n - 1) - 1) base (base + n - 1) T2 _
            (le_refl base) (by omega) ih3
    · have hstep : heapLoop2 v base t n (fuel + 1) = t := by
        rw [heapLoop2, if_neg hn2]
      rw [hstep]
      refine ⟨?_, rfl, localMod_refl v base (base + n - 1) t⟩
      intro x y hx hxy hy
      by_cases hxb : x ≤ base + n - 1
      · exact hcross x y hx hxb (by omega) hy
      · exact hsuf x y (by omega) hxy hy

theorem aheapsort_post (v : List ℚ) (t : List Nat) (pl num : Int)
    (hpl : 0 ≤ pl) (hnum : 1 ≤ num) (hlen : pl + num ≤ (t.length : Int)) :
    (∀ x y : Int, pl ≤ x → x < y → y ≤ pl + num - 1 →
      vAt v (aheapsort v t pl num) x ≤ vAt v (aheapsort v t pl num) y) ∧
    (aheapsort v t pl num).length = t.length ∧
    localMod v pl (pl + num - 1) t (aheapsort v t pl num) := by
  obtain ⟨hb1, hb2, hb3⟩ := heapLoop1_post v pl num hpl (t.length + 2) t (num / 2)
    (by omega) (by omega)
    (fun k hk => ⟨fun hc => absurd hc (by omega), fun hc => absurd hc (by omega)⟩)
    (by omega)
  obtain ⟨h21, h22, h23⟩ := heapLoop2_post v pl num hpl (t.length + 2)
    (heapLoop1 v pl num t (num / 2) (t.length + 2)) num (by omega) (le_refl num)
    (by omega) hb1
    (fun x y hx hxy hy => absurd hxy (by omega))
    (fun x y hx1 hx2 hy1 hy2 => absurd hy1 (by omega))
    (by omega)
  rw [aheapsort]
  refine ⟨h21, by omega, ?_⟩
  exact localMod_trans v pl (pl + num - 1) t _ _ hb3 h23

/-!  The outer quicksort loop: `sortedOutside` records that every pair of
positions not jointly inside one pending segment is already ordered; it
is preserved by in-segment permutations, by finishing a segment, and by a
partition that splits the head segment at the pivot. -/

theorem sortedOutside_head_mod (v : List ℚ) (t t' : List Nat) (a b : Int)
    (rest : List (Int × Int))
    (hmod : localMod v a b t t')
    (hdisj : ∀ s ∈ rest, b < s.1 ∨ s.2 < a)
    (hso : sortedOutside v t ((a, b) :: rest)) :
    sortedOutside v t' ((a, b) :: rest) := by
  have hlen : t'.length = t.length := hmod.1
  intro x y hx hxy hy hex
  have hexS : ¬ (inSeg a b x ∧ inSeg a b y) := hex (a, b) (by simp)
  have hagree : ∀ w : Int, 0 ≤ w → ¬ (a ≤ w ∧ w ≤ b) → vAt v t' w = vAt v t w := by
    intro w hw0 hw
    refine vAt_agree_of_localMod v a b t t' hmod w ?_ hw0
    unfold inSeg
    omega
  by_cases hxin : a ≤ x ∧ x ≤ b
  · by_cases hyin : a ≤ y ∧ y ≤ b
    · exact absurd ⟨⟨hxin.1, hxin.2⟩, ⟨hyin.1, hyin.2⟩⟩ hexS
    · have hyb : b < y := by omega
      obtain ⟨z, hz1, hz2, hz3, hz4, hz5⟩ := hmod.2.2 x hxin.1 hxin.2 hx (by omega)
      rw [hz5, hagree y (by omega) hyin]
      refine hso z y hz3 (by omega) (by omega) ?_
      intro s hs
      rcases List.mem_cons.mp hs with heq | hs'
      · rw [heq]
        intro hcon
        have hcy : a ≤ y ∧ y ≤ b := hcon.2
        omega
      · intro hcon
        have hcz : s.1 ≤ z ∧ z ≤ s.2 := hcon.1
        have hds := hdisj s hs'
        omega
  · by_cases hyin : a ≤ y ∧ y ≤ b
    · have hxa : x < a := by omega
      obtain ⟨z, hz1, hz2, hz3, hz4, hz5⟩ := hmod.2.2 y hyin.1 hyin.2 (by omega) (by omega)
      rw [hz5, hagree x hx hxin]
      refine hso x z hx (by omega) (by omega) ?_
      intro s hs
      rcases List.mem_cons.mp hs with heq | hs'
      · rw [heq]
        intro hcon
        have hcx : a ≤ x ∧ x ≤ b := hcon.1
        omega
      · intro hcon
        have hcz : s.1 ≤ z ∧ z ≤ s.2 := hcon.2
        have hds := hdisj s hs'
        omega
    · rw [hagree x hx hxin, hagree y (by omega) hyin]
      refine hso x y hx hxy (by omega) ?_
      intro s hs
      rcases List.mem_cons.mp hs with heq | hs'
      · rw [heq]
        intro hcon
        have hcx : a ≤ x ∧ x ≤ b := hcon.1
        omega
      · exact hex s (List.mem_cons_of_mem _ hs')

theorem sortedOutside_pop (v : List ℚ) (t : List Nat) (a b : Int)
    (rest : List (Int × Int))
    (hso : sortedOutside v t ((a, b) :: rest))
    (hsorted : ∀ x y : Int, a ≤ x → x < y → y ≤ b → vAt v t x ≤ vAt v t y) :
    sortedOutside v t rest := by
  intro x y hx hxy hy hex
  by_cases hin : a ≤ x ∧ x ≤ b ∧ a ≤ y ∧ y ≤ b
  · exact hsorted x y hin.1 hxy hin.2.2.2
  · refine hso x y hx hxy hy ?_
    intro s hs
    rcases List.mem_cons.mp hs with heq | hs'
    · rw [heq]
      intro hcon
      have h1 : a ≤ x ∧ x ≤ b := hcon.1
      have h2 : a ≤ y ∧ y ≤ b := hcon.2
      exact hin ⟨h1.1, h1.2, h2.1, h2.2⟩
    · exact hex s hs'

theorem sortedOutside_split (v : List ℚ) (t t' : List Nat) (pl pr pi : Int)
    (rest : List (Int × Int))
    (hmod : localMod v pl pr t t')
    (hdisj : ∀ s ∈ rest, pr < s.1 ∨ s.2 < pl)
    (hso : sortedOutside v t ((pl, pr) :: rest))
    (hpi1 : pl < pi) (hpi2 : pi < pr)
    (hleft : ∀ x : Int, pl ≤ x → x ≤ pi → vAt v t' x ≤ vAt v t' pi)
    (hright : ∀ x : Int, pi ≤ x → x ≤ pr → vAt v t' pi ≤ vAt v t' x) :
    sortedOutside v t' ((pl, pi - 1) :: (pi + 1, pr) :: rest) := by
  have hlen : t'.length = t.length := hmod.1
  intro x y hx hxy hy hex
  have hex1 : ¬ (inSeg pl (pi - 1) x ∧ inSeg pl (pi - 1) y) := hex (pl, pi - 1) (by simp)
  have hex2 : ¬ (inSeg (pi + 1) pr x ∧ inSeg (pi + 1) pr y) := hex (pi + 1, pr) (by simp)
  have hagree : ∀ w : Int, 0 ≤ w → ¬ (pl ≤ w ∧ w ≤ pr) → vAt v t' w = vAt v t w := by
    intro w hw0 hw
    refine vAt_agree_of_localMod v pl pr t t' hmod w ?_ hw0
    unfold inSeg
    omega
  by_cases hxin : pl ≤ x ∧ x ≤ pr
  · by_cases hyin : pl ≤ y ∧ y ≤ pr
    · have hxpi : x ≤ pi := by
        by_contra hc
        exact hex2 ⟨⟨by omega, by omega⟩, ⟨by omega, by omega⟩⟩
      have hypi : pi ≤ y := by
        by_contra hc
        exact hex1 ⟨⟨by omega, by omega⟩, ⟨by omega, by omega⟩⟩
      exact le_trans (hleft x hxin.1 hxpi) (hright y hypi hyin.2)
    · have hyb : pr < y := by omega
      obtain ⟨z, hz1, hz2, hz3, hz4, hz5⟩ := hmod.2.2 x hxin.1 hxin.2 hx (by omega)
      rw [hz5, hagree y (by omega) hyin]
      refine hso z y hz3 (by omega) (by omega) ?_
      intro s hs
      rcases List.mem_cons.mp hs with heq | hs'
      · rw [heq]
        intro hcon
        have hcy : pl ≤ y ∧ y ≤ pr := hcon.2
        omega
      · intro hcon
        have hcz : s.1 ≤ z ∧ z ≤ s.2 := hcon.1
        have hds := hdisj s hs'
        omega
  · by_cases hyin : pl ≤ y ∧ y ≤ pr
    · have hxa : x < pl := by omega
      obtain ⟨z, hz1, hz2, hz3, hz4, hz5⟩ := hmod.2.2 y hyin.1 hyin.2 (by omega) (by omega)
      rw [hz5, hagree x hx hxin]
      refine hso x z hx (by omega) (by omega) ?_
      intro s hs
      rcases List.mem_cons.mp hs with heq | hs'
      · rw [heq]
        intro hcon
        have hcx : pl ≤ x ∧ x ≤ pr := hcon.1
        omega
      · intro hcon
        have hcz : s.1 ≤ z ∧ z ≤ s.2 := hcon.2
        have hds := hdisj s hs'
        omega
    · rw [hagree x hx hxin, hagree y (by omega) hyin]
      refine hso x y hx hxy (by omega) ?_
      intro s hs
      rcases List.mem_cons.mp hs with heq | hs'
      · rw [heq]
        intro hcon
        have hcx : pl ≤ x ∧ x ≤ pr := hcon.1
        omega
      · exact hex s (List.mem_cons_of_mem _ (List.mem_cons_of_mem _ hs'))

theorem aqsLoop_sorted (v : List ℚ) :
    ∀ (fuel : Nat) (t : List Nat) (stack : List (Int × Int)) (pl pr depth : Int),
      (∀ s ∈ (pl, pr) :: stack, 0 ≤ s.1 ∧ s.2 < (t.length : Int)) →
      List.Pairwise (fun s1 s2 : Int × Int => s1.2 < s2.1 ∨ s2.2 < s1.1)
        ((pl, pr) :: stack) →
      sortedOutside v t ((pl, pr) :: stack) →
      ((pl, pr) :: stack).length + 2 * (depth + 1).toNat ≤ fuel →
      (aqsLoop v t stack pl pr depth fuel).length = t.length ∧
      ∀ x y : Int, 0 ≤ x → x < y → y < (t.length : Int) →
        vAt v (aqsLoop v t stack pl pr depth fuel) x
          ≤ vAt v (aqsLoop v t stack pl pr depth fuel) y
  | 0, t, stack, pl, pr, depth => by
    intro _ _ _ hfuel
    simp only [List.length_cons] at hfuel
    omega
  | fuel + 1, t, stack, pl, pr, depth => by
    intro hwf hdisj hso hfuel
    simp only [List.length_cons] at hfuel
    have hpl0 : 0 ≤ pl := (hwf (pl, pr) (by simp)).1
    have hprl : pr < (t.length : Int) := (hwf (pl, pr) (by simp)).2
    have hdhead : ∀ s ∈ stack, pr < s.1 ∨ s.2 < pl := by
      intro s hs
      have := (List.pairwise_cons.mp hdisj).1 s hs
      exact this
    have hdtail : List.Pairwise (fun s1 s2 : Int × Int => s1.2 < s2.1 ∨ s2.2 < s1.1)
        stack := (List.pairwise_cons.mp hdisj).2
    rw [aqsLoop]
    by_cases hbig : pr - pl > 15
    · rw [if_pos hbig]
      by_cases hdep : depth < 0
      · rw [if_pos hdep]
        obtain ⟨hhs, hhl, hhm⟩ := aheapsort_post v t pl (pr - pl + 1) hpl0 (by omega)
          (by omega)
        have he : pl + (pr - pl + 1) - 1 = pr := by omega
        rw [he] at hhs hhm
        have hso1 : sortedOutside v (aheapsort v t pl (pr - pl + 1)) ((pl, pr) :: stack) :=
          sortedOutside_head_mod v t _ pl pr stack hhm hdhead hso
        have hso2 : sortedOutside v (aheapsort v t pl (pr - pl + 1)) stack :=
          sortedOutside_pop v _ pl pr stack hso1 hhs
        rcases stack with _ | ⟨⟨pl2, pr2⟩, rest⟩
        · dsimp only
          refine ⟨hhl, ?_⟩
          intro x y hx hxy hy
          exact hso2 x y hx hxy (by omega) (fun s hs => absurd hs (List.not_mem_nil s))
        · dsimp only
          obtain ⟨ih1, ih2⟩ := aqsLoop_sorted v fuel (aheapsort v t pl (pr - pl + 1))
            rest pl2 pr2 (depth - 1)
            (by
              intro s hs
              have := hwf s (List.mem_cons_of_mem _ hs)
              exact ⟨this.1, by omega⟩)
            hdtail hso2
            (by
              simp only [List.length_cons] at hfuel ⊢
              omega)
          refine ⟨by omega, ?_⟩
          intro x y hx hxy hy
          exact ih2 x y hx hxy (by omega)
      · rw [if_neg hdep]
        obtain ⟨hq1, hq2, hq3, hq4, hq5, hq6⟩ := partitionStep_post v t pl pr hpl0 hprl hbig
        set pp := partitionStep v t pl pr with hppd
        have hsplit : sortedOutside v pp.1 ((pl, pp.2 - 1) :: (pp.2 + 1, pr) :: stack) :=
          sortedOutside_split v t pp.1 pl pr pp.2 stack hq2 hdhead hso hq3 hq4 hq5 hq6
        have hmemswap : ∀ s : Int × Int,
            s ∈ ((pp.2 + 1, pr) :: (pl, pp.2 - 1) :: stack) ↔
            s ∈ ((pl, pp.2 - 1) :: (pp.2 + 1, pr) :: stack) := by
          intro s
          simp only [List.mem_cons]
          tauto
        have hswapped : sortedOutside v pp.1 ((pp.2 + 1, pr) :: (pl, pp.2 - 1) :: stack) :=
          fun x y hx hxy hy hex =>
            hsplit x y hx hxy hy (fun s hs => hex s ((hmemswap s).mpr hs))
        have hwfA : ∀ s ∈ (pl, pp.2 - 1) :: (pp.2 + 1, pr) :: stack,
            0 ≤ s.1 ∧ s.2 < (pp.1.length : Int) := by
          intro s hs
          rcases List.mem_cons.mp hs with heq | hs'
          · rw [heq]
            exact ⟨by omega, by omega⟩
          · rcases List.mem_cons.mp hs' with heq | hs''
            · rw [heq]
              exact ⟨by omega, by omega⟩
            · have := hwf s (List.mem_cons_of_mem _ hs'')
              exact ⟨this.1, by omega⟩
        have hwfB : ∀ s ∈ (pp.2 + 1, pr) :: (pl, pp.2 - 1) :: stack,
            0 ≤ s.1 ∧ s.2 < (pp.1.length : Int) :=
          fun s hs => hwfA s ((hmemswap s).mp hs)
        have hdisjA : List.Pairwise (fun s1 s2 : Int × Int => s1.2 < s2.1 ∨ s2.2 < s1.1)
            ((pl, pp.2 - 1) :: (pp.2 + 1, pr) :: stack) := by
          rw [List.pairwise_cons]
          constructor
          · intro s hs
            rcases List.mem_cons.mp hs with heq | hs'
            · rw [heq]
              left
              omega
            · have := hdhead s hs'
              rcases this with h | h
              · left
                omega
              · right
                omega
          · rw [List.pairwise_cons]
            refine ⟨?_, hdtail⟩
            intro s hs
            have := hdhead s hs
            rcases this with h | h
            · left
              omega
            · right
              omega
        have hdisjB : List.Pairwise (fun s1 s2 : Int × Int => s1.2 < s2.1 ∨ s2.2 < s1.1)
            ((pp.2 + 1, pr) :: (pl, pp.2 - 1) :: stack) := by
          rw [List.pairwise_cons]
          constructor
          · intro s hs
            rcases List.mem_cons.mp hs with heq | hs'
            · rw [heq]
              right
              omega
            · have := hdhead s hs'
              rcases this with h | h
              · left
                omega
              · right
                omega
          · rw [List.pairwise_cons]
            refine ⟨?_, hdtail⟩
            intro s hs
            have := hdhead s hs
            rcases this with h | h
            · left
              omega
            · right
              omega
        dsimp only
        split_ifs with hside
        · obtain ⟨ih1, ih2⟩ := aqsLoop_sorted v fuel pp.1 ((pp.2 + 1, pr) :: stack)
            pl (pp.2 - 1) (depth - 1) hwfA hdisjA hsplit
            (by
              simp only [List.length_cons]
              omega)
          refine ⟨by omega, ?_⟩
          intro x y hx hxy hy
          exact ih2 x y hx hxy (by omega)
        · obtain ⟨ih1, ih2⟩ := aqsLoop_sorted v fuel pp.1 ((pl, pp.2 - 1) :: stack)
            (pp.2 + 1) pr (depth - 1) hwfB hdisjB hswapped
            (by
              simp only [List.length_cons]
              omega)
          refine ⟨by omega, ?_⟩
          intro x y hx hxy hy
          exact ih2 x y hx hxy (by omega)
    · rw [if_neg hbig]
      have hins := insSeg_localMod v t pl pr hpl0 hprl
      have hinss := insSeg_sorted_inside v t pl pr hpl0 hprl
      have hinl : (insSeg v t pl pr).length = t.length := hins.1
      have hso1 : sortedOutside v (insSeg v t pl pr) ((pl, pr) :: stack) :=
        sortedOutside_head_mod v t _ pl pr stack hins hdhead hso
      have hso2 : sortedOutside v (insSeg v t pl pr) stack :=
        sortedOutside_pop v _ pl pr stack hso1 (fun x y h1 h2 h3 => hinss x y h1 h2 h3)
      rcases stack with _ | ⟨⟨pl2, pr2⟩, rest⟩
      · dsimp only
        refine ⟨hinl, ?_⟩
        intro x y hx hxy hy
        exact hso2 x y hx hxy (by omega) (fun s hs => absurd hs (List.not_mem_nil s))
      · dsimp only
        obtain ⟨ih1, ih2⟩ := aqsLoop_sorted v fuel (insSeg v t pl pr)
          rest pl2 pr2 depth
          (by
            intro s hs
            have := hwf s (List.mem_cons_of_mem _ hs)
            exact ⟨this.1, by omega⟩)
          hdtail hso2
          (by
            simp only [List.length_cons] at hfuel ⊢
            omega)
        refine ⟨by omega, ?_⟩
        intro x y hx hxy hy
        exact ih2 x y hx hxy (by omega)

theorem npyMsb_le : ∀ (u fuel : Nat), npyMsb u fuel ≤ fuel
  | _, 0 => le_refl 0
  | u, fuel + 1 => by
    rw [npyMsb]
    split_ifs with h
    · omega
    · have := npyMsb_le (u / 2) fuel
      omega

theorem aquicksort_sorted (v : List ℚ) :
    (aquicksort v).length = v.length ∧
    ∀ x y : Int, 0 ≤ x → x < y → y < (v.length : Int) →
      vAt v (aquicksort v) x ≤ vAt v (aquicksort v) y := by
  unfold aquicksort
  have hrl : (List.range v.length).length = v.length := List.length_range v.length
  obtain ⟨h1, h2⟩ := aqsLoop_sorted v (4 * v.length + 64) (List.range v.length) []
    0 ((v.length : Int) - 1) (2 * (npyMsb v.length v.length : Int))
    (by
      intro s hs
      rcases List.mem_cons.mp hs with heq | hs'
      · rw [heq]
        refine ⟨le_refl 0, ?_⟩
        show (v.length : Int) - 1 < ((List.range v.length).length : Int)
        rw [hrl]
        omega
      · exact absurd hs' (List.not_mem_nil s))
    (by simp)
    (by
      intro x y hx hxy hy hex
      exfalso
      rw [hrl] at hy
      refine hex (0, (v.length : Int) - 1) (by simp) ⟨⟨hx, by omega⟩, ⟨by omega, by omega⟩⟩)
    (by
      have hmsb := npyMsb_le v.length v.length
      simp only [List.length_cons, List.length_nil]
      omega)
  refine ⟨by rw [h1, hrl], ?_⟩
  intro x y hx hxy hy
  exact h2 x y hx hxy (by rw [hrl]; exact hy)

theorem aquicksort_pairwise_le (v : List ℚ) :
    (aquicksort v).Pairwise (fun i j => v.getD i 0 ≤ v.getD j 0) := by
  obtain ⟨hlen, hsort⟩ := aquicksort_sorted v
  rw [List.pairwise_iff_getElem]
  intro i j hi hj hij
  have h := hsort (i : Int) (j : Int) (by omega) (by omega) (by omega)
  unfold vAt at h
  have hti : ((i : Nat) : Int).toNat = i := by omega
  have htj : ((j : Nat) : Int).toNat = j := by omega
  rw [hti, htj, List.getD_eq_getElem _ 0 hi, List.getD_eq_getElem _ 0 hj] at h
  exact h

theorem nargsortDesc_pairwise_le (keys : List ℚ) :
    (nargsortDesc keys).Pairwise (fun i j => keys.getD j 0 ≤ keys.getD i 0) := by
  unfold nargsortDesc
  have hrevlen : keys.reverse.length = keys.length := List.length_reverse keys
  rw [List.pairwise_reverse, List.pairwise_map]
  have hpair := aquicksort_pairwise_le keys.reverse
  have hmem : ∀ p ∈ aquicksort keys.reverse, p < keys.length := by
    intro p hp
    have h := List.mem_range.mp ((aquicksort_perm keys.reverse).mem_iff.mp hp)
    rw [hrevlen] at h
    exact h
  refine List.Pairwise.imp_of_mem ?_ hpair
  intro p q hp hq hle
  have hpn : p < keys.length := hmem p hp
  have hqn : q < keys.length := hmem q hq
  have hfp : ((List.range keys.length).reverse).getD p 0 = keys.length - 1 - p :=
    revIdx_getD keys.length p hpn
  have hfq : ((List.range keys.length).reverse).getD q 0 = keys.length - 1 - q :=
    revIdx_getD keys.length q hqn
  have hvp : keys.reverse.getD p 0 = keys.getD (keys.length - 1 - p) 0 :=
    getD_reverse_q keys p hpn
  have hvq : keys.reverse.getD q 0 = keys.getD (keys.length - 1 - q) 0 :=
    getD_reverse_q keys q hqn
  show keys.getD (((List.range keys.length).reverse).getD p 0) 0
      ≤ keys.getD (((List.range keys.length).reverse).getD q 0) 0
  rw [hfp, hfq]
  rw [hvp, hvq] at hle
  exact hle

theorem sortValuesDesc_pairwise (recs : List ReturnRecord) :
    (sortValuesDesc recs).Pairwise (fun a b => b.retPct ≤ a.retPct) := by
  unfold sortValuesDesc
  rw [List.pairwise_map]
  have hpair := nargsortDesc_pairwise_le (keysOf recs)
  have hklen : (keysOf recs).length = recs.length := List.length_map recs _
  have hmem : ∀ p ∈ nargsortDesc (keysOf recs), p < recs.length := by
    intro p hp
    have h := List.mem_range.mp ((nargsortDesc_perm (keysOf recs)).mem_iff.mp hp)
    rw [hklen] at h
    exact h
  refine List.Pairwise.imp_of_mem ?_ hpair
  intro p q hp hq hle
  rw [keysOf_getD recs q (hmem q hq), keysOf_getD recs p (hmem p hp)] at hle
  exact hle

/-!  Stability in the insertion-sort regime, stated without assuming the
record keys (or the input symbols) are distinct: for at most sixteen rows
the pandas sort coincides with the stable descending specification sort
`specStableSortDesc`. -/

theorem specSortKey_trans (recs : List ReturnRecord) :
    ∀ a b c : Nat, specSortKey recs a b → specSortKey recs b c → specSortKey recs a c := by
  intro a b c hab hbc
  unfold specSortKey at hab hbc ⊢
  rcases hab with h1 | ⟨h1, h2⟩ <;> rcases hbc with h3 | ⟨h3, h4⟩
  · exact Or.inl (lt_trans h3 h1)
  · refine Or.inl ?_
    rw [← h3]
    exact h1
  · refine Or.inl ?_
    rw [h1]
    exact h3
  · exact Or.inr ⟨h1.trans h3, le_trans h2 h4⟩

theorem specSortKey_total (recs : List ReturnRecord) :
    ∀ a b : Nat, specSortKey recs a b ∨ specSortKey recs b a := by
  intro a b
  unfold specSortKey
  rcases lt_trichotomy ((keysOf recs).getD a 0) ((keysOf recs).getD b 0) with h | h | h
  · right
    exact Or.inl h
  · rcases le_total a b with hab | hab
    · left
      exact Or.inr ⟨h, hab⟩
    · right
      exact Or.inr ⟨h.symm, hab⟩
  · left
    exact Or.inl h

theorem specSortKey_antisymm (recs : List ReturnRecord) :
    ∀ a b : Nat, specSortKey recs a b → specSortKey recs b a → a = b := by
  intro a b hab hba
  unfold specSortKey at hab hba
  rcases hab with h1 | ⟨h1, h2⟩ <;> rcases hba with h3 | ⟨h3, h4⟩
  · exact absurd (lt_trans h1 h3) (lt_irrefl _)
  · rw [h3] at h1
    exact absurd h1 (lt_irrefl _)
  · rw [h1] at h3
    exact absurd h3 (lt_irrefl _)
  · omega

theorem sortValues_eq_spec_small (recs : List ReturnRecord) (hn : recs.length ≤ 16) :
    sortValuesDesc recs = specStableSortDesc recs := by
  unfold sortValuesDesc specStableSortDesc
  congr 1
  haveI hT : IsTrans Nat (specSortKey recs) := ⟨specSortKey_trans recs⟩
  haveI hTot : IsTotal Nat (specSortKey recs) := ⟨specSortKey_total recs⟩
  haveI hA : IsAntisymm Nat (specSortKey recs) := ⟨specSortKey_antisymm recs⟩
  have hklen : (keysOf recs).length = recs.length := List.length_map recs _
  have hperm : List.Perm (nargsortDesc (keysOf recs))
      (List.insertionSort (specSortKey recs) (List.range recs.length)) := by
    have h1 := nargsortDesc_perm (keysOf recs)
    rw [hklen] at h1
    exact h1.trans (List.perm_insertionSort (specSortKey recs) (List.range recs.length)).symm
  have hs1 : List.Sorted (specSortKey recs) (nargsortDesc (keysOf recs)) := by
    have hidx := nargsortDesc_pairwise_small (keysOf recs) (by rw [hklen]; exact hn)
    refine List.Pairwise.imp ?_ hidx
    intro a b h
    unfold specSortKey
    rcases h with h | ⟨h1, h2⟩
    · exact Or.inl h
    · exact Or.inr ⟨h1, le_of_lt h2⟩
  have hs2 : List.Sorted (specSortKey recs)
      (List.insertionSort (specSortKey recs) (List.range recs.length)) :=
    List.sorted_insertionSort (specSortKey recs) (List.range recs.length)
  exact List.eq_of_perm_of_sorted hperm hs1 hs2

/-- C3: the returned table is sorted descending by `Return (%)` at every
size; in the at-most-16-row regime, where numpy's introsort takes its
insertion-sort path, the non-empty table moreover equals the stable
descending sort of the computed records in input order, ties and
duplicate keys included — while the seventeen-row counterexample shows
the tie order can break beyond sixteen rows. -/
theorem C3_sorted_desc_stable (provider : String → Int → Int → Option ProviderResponse)
    (nyTz : Int) (sl : List String) (d tmin : Int) :
    (calculate_stock_returns provider nyTz sl d tmin).table.Pairwise
      (fun a b => b.retPct ≤ a.retPct) ∧
    ((calculate_stock_returns provider nyTz sl d tmin).table ≠ [] →
      (calculate_stock_returns provider nyTz sl d tmin).table.length ≤ 16 →
      (calculate_stock_returns provider nyTz sl d tmin).table
        = specStableSortDesc (sl.filterMap (processSymbol provider nyTz d tmin))) := by
  by_cases hw : 5 ≤ weekday d
  · have htab : (calculate_stock_returns provider nyTz sl d tmin).table = [] := by
      unfold calculate_stock_returns
      rw [if_pos hw]
    rw [htab]
    exact ⟨List.Pairwise.nil, fun hne _ => absurd rfl hne⟩
  · by_cases hre : sl.filterMap (processSymbol provider nyTz d tmin) = []
    · have htab : (calculate_stock_returns provider nyTz sl d tmin).table = [] := by
        unfold calculate_stock_returns
        rw [if_neg hw, if_pos (by simp [List.isEmpty_iff, hre])]
      rw [htab]
      exact ⟨List.Pairwise.nil, fun hne _ => absurd rfl hne⟩
    · have htab := calc_table_sorted provider nyTz sl d tmin (by omega) hre
      rw [htab]
      refine ⟨sortValuesDesc_pairwise _, ?_⟩
      intro _ hlen
      have hlrecs : (sl.filterMap (processSymbol provider nyTz d tmin)).length ≤ 16 := by
        rw [← (sortValuesDesc_perm
          (sl.filterMap (processSymbol provider nyTz d tmin))).length_eq]
        exact hlen
      exact sortValues_eq_spec_small _ hlrecs

/-- C3 witness: at the two-symbol fixture (returns 5% and 1%) the table
is non-empty with at most sixteen rows, is sorted descending, and equals
the stable specification sort of the records in input order. -/
theorem C3_sorted_desc_stable_witness :
    (calculate_stock_returns c3wP 0 ["A", "B"] 5 600).table.Pairwise
      (fun a b => b.retPct ≤ a.retPct) ∧
    (calculate_stock_returns c3wP 0 ["A", "B"] 5 600).table
      = specStableSortDesc
          ((["A", "B"] : List String).filterMap (processSymbol c3wP 0 5 600)) := by
  have hA : processSymbol c3wP 0 5 600 "A" = some ⟨"A", 100, 105, 5⟩ := by
    have h := processSymbol_eval c3wP 0 5 600 "A" c3wRespA
      ⟨7800, 105⟩ [] ⟨6360, 100⟩ (by decide) (by decide) (by decide)
    rw [h]
    norm_num [round2, roundHalfEven, exactReturn]
  have hB : processSymbol c3wP 0 5 600 "B" = some ⟨"B", 100, 101, 1⟩ := by
    have h := processSymbol_eval c3wP 0 5 600 "B" c3wRespB
      ⟨7800, 101⟩ [] ⟨6360, 100⟩ (by decide) (by decide) (by decide)
    rw [h]
    norm_num [round2, roundHalfEven, exactReturn]
  have hrecs : (["A", "B"] : List String).filterMap (processSymbol c3wP 0 5 600)
      = [⟨"A", 100, 105, 5⟩, ⟨"B", 100, 101, 1⟩] := by
    simp [List.filterMap_cons, hA, hB]
  obtain ⟨h1, h2⟩ := C3_sorted_desc_stable c3wP 0 ["A", "B"] 5 600
  refine ⟨h1, h2 ?_ ?_⟩
  · rw [calc_table_sorted c3wP 0 _ 5 600 (by decide) (by rw [hrecs]; simp), hrecs]
    decide
  · rw [calc_table_sorted c3wP 0 _ 5 600 (by decide) (by rw [hrecs]; simp), hrecs]
    decide
